import Mathlib

/-!
# Verification of the Quantum_Simulation_Scheduling schedulers

Shallow embedding of the scheduling core of the repository:

* `component/d_scheduling/algorithm/heuristic/FFD/FFD_implement.py`
  (`find_earliest_start`, `schedule_jobs_parallel`),
* `benchmarks/algorithms/FFD/FFD_implement.py`
  (`can_run_at_time`, `find_earliest_start`, `schedule_jobs_ffd`),
* `component/d_scheduling/algorithm/heuristic/MTMC/MTMC_implement.py`
  (`multi_task_multi_chip_scheduling`, `MultiTaskMultiChipsPreAlloc`,
  `format_result_json`),
* `component/d_scheduling/algorithm/ilp/MILQ_extend/MILQ_extend_implementation.py`
  (`_calc_makespan`, `_find_last_completed`, `_extract_gurobi_results`),
* `component/d_scheduling/extract/ilp.py` (`_read_solution_file`).

Times are modelled as rationals (Python floats are used only for values that
arise from integer arithmetic plus a rational scale factor), demands and
capacities as naturals, Python ints that can go negative as integers.
The unbounded `while True` probing loops are modelled with explicit fuel:
a `none` result for every fuel value corresponds to non-termination of the
Python loop.
-/

namespace Sched

/-- A schedule entry, the dictionary appended to `schedule` by both FFD
implementations and produced by MTMC's `format_result_json`:
`{"job", "qubits", "machine", "capacity", "start", "end", "duration"}`.
The Python key `end` is spelled `stop` (Lean keyword). -/
structure Entry where
  job : String
  qubits : Nat
  machine : String
  capacity : Nat
  start : ℚ
  stop : ℚ
  duration : ℚ
  deriving DecidableEq, Repr

/-- Stable insertion sort: `insSortBy lt l` orders `l` so that an element `a`
is placed before `b` exactly when `lt a b`; elements that are not strictly
related keep their input order.  Python's `sorted` is a stable sort, so for a
given strict-by-key comparison it returns exactly this list. -/
def insertBy {α : Type} (lt : α → α → Bool) (a : α) : List α → List α
  | [] => [a]
  | b :: l => if lt a b then a :: b :: l else b :: insertBy lt a l

def insSortBy {α : Type} (lt : α → α → Bool) : List α → List α
  | [] => []
  | a :: l => insertBy lt a (insSortBy lt l)

/-! ## Benchmarks FFD (`benchmarks/algorithms/FFD/FFD_implement.py`) -/

/-- The load accumulation loop inside `can_run_at_time`: sums `job["qubits"]`
over every already-scheduled entry whose interval overlaps
`[start, start+duration)`; the code skips an entry exactly when
`start + duration <= job["start"] or start >= job["end"]`. -/
def loadB (sched : List Entry) (start duration : ℚ) : Nat :=
  sched.foldl
    (fun acc e => if start + duration ≤ e.start ∨ start ≥ e.stop then acc else acc + e.qubits)
    0

/-- `can_run_at_time(machine_schedule, machine_capacity, job_qubits, start, duration)`:
true iff the overlapping load plus the new job's qubits fits the capacity. -/
def can_run_at_time (sched : List Entry) (cap q : Nat) (start duration : ℚ) : Bool :=
  decide (loadB sched start duration + q ≤ cap)

/-- Benchmarks `find_earliest_start`: probes `t = 0, 1, 2, ...` until
`can_run_at_time` holds, with `duration = job_qubits`.  `fuel` bounds the
number of probes; `none` for every fuel means the Python loop never returns. -/
def findEarliestStartB (fuel : Nat) (sched : List Entry) (cap q : Nat) (t : Nat) : Option Nat :=
  match fuel with
  | 0 => none
  | fuel + 1 =>
    if can_run_at_time sched cap q (t : ℚ) (q : ℚ) then some t
    else findEarliestStartB fuel sched cap q (t + 1)

/-- Outcome of a scheduler run that did terminate: either a schedule or an
uncaught Python exception (`RuntimeError` in `schedule_jobs_parallel`,
`KeyError`/`TypeError` on the `best_machine = None` path of
`schedule_jobs_ffd`). -/
inductive FFDOut where
  | ok (s : List Entry)
  | error
  deriving DecidableEq, Repr

/-- Per-machine schedules: the `machines = {name: [] for name in machine_capacities}`
dictionary, in machine-input order. -/
def initMS (machines : List (String × Nat)) : List (String × List Entry) :=
  machines.map (fun m => (m.1, []))

def msLookup (ms : List (String × List Entry)) (name : String) : List Entry :=
  match ms.find? (fun p => p.1 = name) with
  | some p => p.2
  | none => []

def msAppend (ms : List (String × List Entry)) (name : String) (e : Entry) :
    List (String × List Entry) :=
  ms.map (fun p => if p.1 = name then (p.1, p.2 ++ [e]) else p)

/-- The machine loop of `schedule_jobs_ffd`: probes every machine (in input
order) and keeps the machine with the strictly earliest start (`<`, so the
first machine wins ties).  Outer `none`: some probe never returned
(non-termination of the Python call); `some none`: the loop body never ran,
i.e. there is no machine (`best_machine` stays `None`). -/
def chooseMachineB (fuel : Nat) (machines : List (String × Nat))
    (ms : List (String × List Entry)) (jid : String) (q : Nat) :
    Option (Option (String × Entry)) :=
  go machines none
where
  go : List (String × Nat) → Option (Nat × String × Entry) → Option (Option (String × Entry))
    | [], best => some (best.map (fun b => (b.2.1, b.2.2)))
    | (m, cap) :: rest, best =>
      match findEarliestStartB fuel (msLookup ms m) cap q 0 with
      | none => none
      | some t =>
        let e : Entry :=
          { job := jid, qubits := q, machine := m, capacity := cap,
            start := (t : ℚ), stop := (t : ℚ) + (q : ℚ), duration := (q : ℚ) }
        match best with
        | none => go rest (some (t, m, e))
        | some (t0, b0) => if t < t0 then go rest (some (t, m, e)) else go rest (some (t0, b0))

/-- The job loop of `schedule_jobs_ffd`: zero-qubit jobs are skipped, the best
entry is appended to both the global schedule and the chosen machine's local
schedule. -/
def ffdGo (fuel : Nat) (machines : List (String × Nat)) :
    List (String × Nat) → List (String × List Entry) → List Entry → Option FFDOut
  | [], _, sched => some (.ok sched)
  | (jid, q) :: rest, ms, sched =>
    if q = 0 then ffdGo fuel machines rest ms sched
    else
      match chooseMachineB fuel machines ms jid q with
      | none => none
      | some none => some .error
      | some (some (m, e)) => ffdGo fuel machines rest (msAppend ms m e) (sched ++ [e])

/-- `schedule_jobs_ffd(job_capacities, machine_capacities)`: sorts the jobs by
descending qubits (stable, like Python's `sorted` with `key=lambda x: -x[1]`)
and runs the job loop. -/
def schedule_jobs_ffd (fuel : Nat) (jobs machines : List (String × Nat)) : Option FFDOut :=
  ffdGo fuel machines (insSortBy (fun a b => b.2 < a.2) jobs) (initMS machines) []

/-! ## Component FFD
(`component/d_scheduling/algorithm/heuristic/FFD/FFD_implement.py`) -/

/-- The inline load loop of the component `find_earliest_start`: the same
`for job in machine_schedule` accumulation as the benchmarks version, with the
same overlap test `not (t + duration <= job['start'] or t >= job['end'])`. -/
def loadC (sched : List Entry) (t duration : ℚ) : Nat :=
  match sched with
  | [] => 0
  | e :: rest =>
    if t + duration ≤ e.start ∨ t ≥ e.stop then loadC rest t duration
    else e.qubits + loadC rest t duration

/-- Component `find_earliest_start(machine_schedule, machine_capacity,
job_qubits, base_time_per_qubit)`: `duration = job_qubits * base_time_per_qubit`,
probe `t = 0, 1, 2, ...` until `load + job_qubits <= machine_capacity`. -/
def findEarliestStartC (fuel : Nat) (sched : List Entry) (cap q : Nat) (b : ℚ)
    (t : Nat) : Option Nat :=
  match fuel with
  | 0 => none
  | fuel + 1 =>
    if loadC sched (t : ℚ) ((q : ℚ) * b) + q ≤ cap then some t
    else findEarliestStartC fuel sched cap q b (t + 1)

/-- The machine loop of `schedule_jobs_parallel`: identical structure to the
benchmarks loop, but `duration = qubit * base_time_per_qubit`. -/
def chooseMachineC (fuel : Nat) (machines : List (String × Nat))
    (ms : List (String × List Entry)) (jid : String) (q : Nat) (b : ℚ) :
    Option (Option (String × Entry)) :=
  go machines none
where
  go : List (String × Nat) → Option (Nat × String × Entry) → Option (Option (String × Entry))
    | [], best => some (best.map (fun p => (p.2.1, p.2.2)))
    | (m, cap) :: rest, best =>
      match findEarliestStartC fuel (msLookup ms m) cap q b 0 with
      | none => none
      | some t =>
        let e : Entry :=
          { job := jid, qubits := q, machine := m, capacity := cap,
            start := (t : ℚ), stop := (t : ℚ) + (q : ℚ) * b, duration := (q : ℚ) * b }
        match best with
        | none => go rest (some (t, m, e))
        | some (t0, b0) => if t < t0 then go rest (some (t, m, e)) else go rest (some (t0, b0))

/-- The job loop of `schedule_jobs_parallel`.  The code guards the assignment
with `if chosen_machine and chosen_schedule_entry:`, where `chosen_machine` is
the machine NAME, so a machine named `""` is falsy and leads to the
`RuntimeError` branch, exactly like an empty machine dictionary. -/
def parGo (fuel : Nat) (machines : List (String × Nat)) (b : ℚ) :
    List (String × Nat) → List (String × List Entry) → List Entry → Option FFDOut
  | [], _, sched => some (.ok sched)
  | (jid, q) :: rest, ms, sched =>
    if q = 0 then parGo fuel machines b rest ms sched
    else
      match chooseMachineC fuel machines ms jid q b with
      | none => none
      | some none => some .error
      | some (some (m, e)) =>
        if m = "" then some .error
        else parGo fuel machines b rest (msAppend ms m e) (sched ++ [e])

/-- `schedule_jobs_parallel(job_capacities, machine_capacities, base_time_per_qubit)`. -/
def schedule_jobs_parallel (fuel : Nat) (jobs machines : List (String × Nat)) (b : ℚ) :
    Option FFDOut :=
  parGo fuel machines b (insSortBy (fun a b => b.2 < a.2) jobs) (initMS machines) []

/-! ## MTMC (`component/d_scheduling/algorithm/heuristic/MTMC/MTMC_implement.py`)

The chip dictionary `chip_status = {chip['name']: ...}` is modelled as a list
of chips in `chiplist` order (duplicate chip names, which a Python dict cannot
hold, are excluded by a `Nodup` hypothesis in the theorems that need it).
`MultiTaskMultiChipsPreAlloc` maps `allocate_task` over the sorted task list
through a thread pool, but every call body runs entirely inside `with lock:`
and the pool consumes the work items in list order, so the lock-serialized
semantics is the sequential in-order fold modelled here. -/

/-- A pending task `{'name': ..., 'qubits': ...}`. -/
structure Task where
  name : String
  qubits : Nat
  deriving DecidableEq, Repr

/-- An allocated `task_copy` dictionary.  `capacity` records the chip's
remaining capacity from before the deduction (the code stores
`chip_status[selected_chip]['capacity'] + task['qubits']` after deducting);
`time_left` is a Python int and can become negative. -/
structure RTask where
  name : String
  qubits : Nat
  assigned_chip : String
  capacity : Nat
  time_left : Int
  start_time : Nat
  end_time : Nat
  deriving DecidableEq, Repr

/-- One entry of `chip_status`: remaining capacity plus running tasks. -/
structure Chip where
  name : String
  capacity : Nat
  running_tasks : List RTask
  deriving DecidableEq, Repr

/-- The per-tick completion sweep: every running task's `time_left` drops by
one; tasks hitting exactly `0` return their qubits to the chip's capacity and
leave `running_tasks`. -/
def decrementChip (c : Chip) : Chip :=
  let dec := c.running_tasks.map (fun t => { t with time_left := t.time_left - 1 })
  let finished := dec.filter (fun t => t.time_left = 0)
  { c with
    capacity := c.capacity + (finished.map (fun t => t.qubits)).sum,
    running_tasks := dec.filter (fun t => ¬t.time_left = 0) }

/-- `allocate_task(task)` under the lock: filter the chips that still fit the
task, pick the one with greatest remaining capacity (Python's `max` keeps the
first maximum), deduct, and record the allocation with `time_left = qubits`,
`start_time = global_time`, `end_time = global_time + qubits`. -/
def allocate_task (task : Task) (chips : List Chip) (g : Nat) : Option RTask × List Chip :=
  let possible := chips.filter (fun c => task.qubits ≤ c.capacity)
  match possible with
  | [] => (none, chips)
  | c0 :: rest =>
    let sel := rest.foldl (fun best c => if best.capacity < c.capacity then c else best) c0
    let r : RTask :=
      { name := task.name, qubits := task.qubits, assigned_chip := sel.name,
        capacity := sel.capacity, time_left := (task.qubits : Int),
        start_time := g, end_time := g + task.qubits }
    (some r,
      chips.map (fun c =>
        if c.name = sel.name then
          { c with capacity := c.capacity - task.qubits, running_tasks := c.running_tasks ++ [r] }
        else c))

/-- `MultiTaskMultiChipsPreAlloc(tasklist, chip_status, global_time)`: the
lock-serialized in-order allocation of every task in `tasklist`; returns
(allocated, not allocated, updated chips). -/
def MultiTaskMultiChipsPreAlloc (tasklist : List Task) (chips : List Chip) (g : Nat) :
    List RTask × List Task × List Chip :=
  match tasklist with
  | [] => ([], [], chips)
  | task :: rest =>
    match allocate_task task chips g with
    | (some r, chips') =>
      let (a, n, c) := MultiTaskMultiChipsPreAlloc rest chips' g
      (r :: a, n, c)
    | (none, chips') =>
      let (a, n, c) := MultiTaskMultiChipsPreAlloc rest chips' g
      (a, task :: n, c)

/-- The scheduler state at the top of the `while` loop. -/
structure MState where
  pending : List Task
  chips : List Chip
  time : Nat
  done : List RTask
  deriving Repr

/-- `while task_remaining or any(chip_status[c]['running_tasks'] ...)`. -/
def mtmcCond (st : MState) : Bool :=
  !st.pending.isEmpty || st.chips.any (fun c => !c.running_tasks.isEmpty)

/-- One pass of the main loop: sort the pending tasks by name (Python string
order, lexicographic on code points), run the completion sweep, allocate, and
advance the clock. -/
def mtmcStep (st : MState) : MState :=
  let tasklist := insSortBy (fun a b => a.name < b.name) st.pending
  let chips1 := st.chips.map decrementChip
  let (alloc, nalloc, chips2) := MultiTaskMultiChipsPreAlloc tasklist chips1 st.time
  { pending := nalloc, chips := chips2, time := st.time + 1, done := st.done ++ alloc }

/-- The fueled main loop; `none` for every fuel value corresponds to the
Python loop never terminating. -/
def mtmcRun (fuel : Nat) (st : MState) : Option (List RTask) :=
  if mtmcCond st then
    match fuel with
    | 0 => none
    | fuel + 1 => mtmcRun fuel (mtmcStep st)
  else some st.done

/-- `format_result_json(results_success, chiplist)`: sort by start time
(stable) and emit wire-format entries; `capacity` is looked up in the
initial-capacity map built from `chiplist`. -/
def format_result_json (done : List RTask) (chiplist : List (String × Nat)) : List Entry :=
  (insSortBy (fun a b => a.start_time < b.start_time) done).map fun t =>
    { job := t.name, qubits := t.qubits, machine := t.assigned_chip,
      capacity := ((chiplist.find? (fun c => c.1 = t.assigned_chip)).map Prod.snd).getD 0,
      start := (t.start_time : ℚ), stop := (t.end_time : ℚ),
      duration := (t.end_time : ℚ) - (t.start_time : ℚ) }

/-- `multi_task_multi_chip_scheduling(chiplist, tasks)`. -/
def multi_task_multi_chip_scheduling (fuel : Nat) (chiplist : List (String × Nat))
    (tasks : List Task) : Option (List Entry) :=
  (mtmcRun fuel
      { pending := tasks,
        chips := chiplist.map (fun c => { name := c.1, capacity := c.2, running_tasks := [] }),
        time := 0, done := [] }).map
    (fun done => format_result_json done chiplist)

/-! ## Extended-ILP makespan recomputation
(`MILQ_extend_implementation.py`, `_calc_makespan` / `_find_last_completed`) -/

/-- One `JobResultInfo` as read back from the solved LP: solved start and
completion times, assigned machine. -/
structure JobResultInfo where
  name : String
  machine : String
  start_time : ℚ
  completion_time : ℚ
  capacity : Nat
  deriving DecidableEq, Repr

/-- `_find_last_completed(job_name, jobs, machine)`: look the job up by name
to obtain its original start time, keep the jobs completing no later than
that, and return the one with the greatest completion time (Python's `max`
keeps the first maximum); the synthetic job "0" when none qualifies.  The
`for`/`else` `ValueError` of the source cannot fire on the call sites, which
always pass a name occurring in `jobs`; the lookup defaults to start 0. -/
def find_last_completed (jobName : String) (jobs : List JobResultInfo) (machine : String) :
    JobResultInfo :=
  let origStart := (((jobs.find? (fun j => j.name = jobName)).map
    (fun j => j.start_time)).getD 0)
  match jobs.filter (fun j => j.completion_time ≤ origStart) with
  | [] => ⟨"0", machine, 0, 0, 0⟩
  | c :: cs =>
    cs.foldl (fun best j => if best.completion_time < j.completion_time then j else best) c

/-- The `defaultdict(list)` grouping `assigned_machines`: machines in order of
first appearance, each with its jobs in input order. -/
def groupByMachine (jobs : List JobResultInfo) : List (String × List JobResultInfo) :=
  jobs.foldl (fun acc j =>
    if acc.any (fun p => p.1 = j.machine) then
      acc.map (fun p => if p.1 = j.machine then (p.1, p.2 ++ [j]) else p)
    else acc ++ [(j.machine, [j])]) []

/-- The inner loop of `_calc_makespan` (the `for_bin=False` branch) for one
machine.  Python iterates the list's mutable job objects in the order of
`sorted(assigned_jobs, key=start_time)` — computed up front from the original
start times, stable — and mutates each object once; here the mutable list is
`cur` and the iteration order is the stably sorted list of indices.  For each
job: the predecessor comes from `_find_last_completed` on the deep copy
(original values), is replaced by the synthetic job "0" when the job's
original start time is 0, the new start time is the current completion time
of the first job named like the predecessor, and the new completion time is
the predecessor's ORIGINAL completion time plus real process and setup
times. -/
def machinePass (machine : String) (l : List JobResultInfo)
    (pt : String → String → ℚ) (st : String → String → String → ℚ) :
    List JobResultInfo :=
  let order := insSortBy (fun i j =>
    ((l[i]?.map (fun x => x.start_time)).getD 0) < ((l[j]?.map (fun x => x.start_time)).getD 0))
    (List.range l.length)
  order.foldl (fun cur i =>
    match l[i]? with
    | none => cur
    | some orig =>
      let last0 := find_last_completed orig.name l machine
      let last := if orig.start_time = 0 then (⟨"0", machine, 0, 0, 0⟩ : JobResultInfo) else last0
      let newStart :=
        (((cur.find? (fun j => last.name = j.name)).map (fun j => j.completion_time)).getD 0)
      let newCompletion :=
        last.completion_time + pt orig.name machine + st last.name orig.name machine
      cur.set i { orig with start_time := newStart, completion_time := newCompletion }) l

/-- `max(job.completion_time for job in assigned_jobs)`. -/
def maxCompletion (l : List JobResultInfo) : ℚ :=
  match l with
  | [] => 0
  | c :: cs => cs.foldl (fun m j => max m j.completion_time) c.completion_time

/-- `_calc_makespan(jobs, process_times, setup_times, job_names, machines)`
with `for_bin=False`; the `p_times`/`s_times` dictionaries built by
`pulp.makeDict` are passed as lookup functions.  `max(makespans)` raises on an
empty job list in Python; that case is mapped to 0. -/
def calc_makespan (jobs : List JobResultInfo)
    (pt : String → String → ℚ) (st : String → String → String → ℚ) : ℚ :=
  let makespans := (groupByMachine jobs).map (fun p => maxCompletion (machinePass p.1 p.2 pt st))
  match makespans with
  | [] => 0
  | m :: ms => ms.foldl max m

/-- The deterministic re-simulation exactly as claim C5 words it: group the
extracted jobs by assigned machine, sort each machine's jobs by their solved
start time, and sequentially set each job's completion time to its
predecessor's completion time (the synthetic job "0", completing at 0, for
the first job) plus the real process time plus the real setup time; the
makespan is the maximum completion time over all jobs. -/
def resimMachineClaim (machine : String) (l : List JobResultInfo)
    (pt : String → String → ℚ) (st : String → String → String → ℚ) : List ℚ :=
  ((insSortBy (fun a b => a.start_time < b.start_time) l).foldl
    (fun (acc : List ℚ × String × ℚ) j =>
      let comp := acc.2.2 + pt j.name machine + st acc.2.1 j.name machine
      (acc.1 ++ [comp], (j.name, comp)))
    ([], ("0", 0))).1

def calcMakespanResim (jobs : List JobResultInfo)
    (pt : String → String → ℚ) (st : String → String → String → ℚ) : ℚ :=
  let comps := ((groupByMachine jobs).map (fun p => resimMachineClaim p.1 p.2 pt st)).flatten
  match comps with
  | [] => 0
  | c :: cs => cs.foldl max c

/-- The real process times of the C5 failing input: 3 time units for job "A",
1 for every other job, on any machine. -/
def ptEx (j _m : String) : ℚ := if j = "A" then 3 else 1

/-- The real setup times of the C5 failing input: 2 time units between "A"
and "B", 0 otherwise. -/
def stEx (p j _m : String) : ℚ := if p = "A" then (if j = "B" then 2 else 0) else 0

/-- C5 (code evaluated at the failing input): on one machine "m" with solved
jobs A (start 0, completion 10) and B (start 11, completion 20), real process
times p(A)=3, p(B)=1 and setup s(A,B)=2 (0 from the synthetic job), the
code's recomputation returns 13 = 10 + 1 + 2: job B's completion is chained
from its predecessor's STALE solved completion time (10), not from the
predecessor's recomputed completion (3); the deterministic re-simulation the
claim describes yields 6 = ((0 + 3 + 0) + 1 + 2). -/
theorem calc_makespan_stale_chain :
    calc_makespan [⟨"A", "m", 0, 10, 0⟩, ⟨"B", "m", 11, 20, 0⟩] ptEx stEx = 13
    ∧ calcMakespanResim [⟨"A", "m", 0, 10, 0⟩, ⟨"B", "m", 11, 20, 0⟩] ptEx stEx = 6
    ∧ calc_makespan [⟨"A", "m", 0, 10, 0⟩, ⟨"B", "m", 11, 20, 0⟩] ptEx stEx
        ≠ calcMakespanResim [⟨"A", "m", 0, 10, 0⟩, ⟨"B", "m", 11, 20, 0⟩] ptEx stEx := by
  have e1 : (decide ("A" = "B")) = false := by rfl
  have e2 : (decide ("B" = "B")) = true := by rfl
  have e4 : (decide ("B" = "A")) = false := by rfl
  have s1 : (("0" : String) = "A") = False := eq_false (by decide)
  have s2 : (("A" : String) = "B") = False := eq_false (by decide)
  have s3 : (("B" : String) = "A") = False := eq_false (by decide)
  have h13 : calc_makespan [⟨"A", "m", 0, 10, 0⟩, ⟨"B", "m", 11, 20, 0⟩] ptEx stEx = 13 := by
    norm_num [calc_makespan, groupByMachine, machinePass, find_last_completed,
      maxCompletion, insSortBy, insertBy,
      ptEx, stEx, List.set, List.range, List.range.loop, List.filter_cons, List.find?_cons,
      e1, e2, e4, s1, s2, s3, sup_eq_max, max_def]
  have h6 : calcMakespanResim [⟨"A", "m", 0, 10, 0⟩, ⟨"B", "m", 11, 20, 0⟩] ptEx stEx = 6 := by
    norm_num [calcMakespanResim, groupByMachine, resimMachineClaim, insSortBy, insertBy,
      ptEx, stEx, s1, s2, s3, sup_eq_max, max_def]
  refine ⟨h13, h6, ?_⟩
  rw [h13, h6]
  norm_num

/-! ## Spec-side definitions (from the specification's words, for comparison) -/

/-- Spec wording of the feasibility primitive's overlap load: the sum of the
demands of the existing entries whose interval overlaps the candidate interval
`[start, start+duration)`, where two intervals overlap unless one entirely
precedes the other. -/
def overlapLoad (sched : List Entry) (start duration : ℚ) : Nat :=
  ((sched.filter (fun e => ¬(start + duration ≤ e.start ∨ start ≥ e.stop))).map
    (fun e => e.qubits)).sum

/-- The demand running on machine `name` at instant `t` in a schedule: the sum
of the demands of the entries assigned to `name` whose half-open interval
`[start, end)` contains `t`.  This is the quantity the capacity invariant
bounds. -/
def pointLoadOn (s : List Entry) (name : String) (t : ℚ) : Nat :=
  ((s.filter (fun e => e.machine = name ∧ e.start ≤ t ∧ t < e.stop)).map
    (fun e => e.qubits)).sum

/-! ## Basic lemmas -/

theorem overlapLoad_cons_pos (e : Entry) (rest : List Entry) (start duration : ℚ)
    (hc : ¬(start + duration ≤ e.start ∨ start ≥ e.stop)) :
    overlapLoad (e :: rest) start duration = e.qubits + overlapLoad rest start duration := by
  unfold overlapLoad
  rw [List.filter_cons_of_pos (by simp only [decide_eq_true_eq]; exact hc)]
  simp

theorem overlapLoad_cons_neg (e : Entry) (rest : List Entry) (start duration : ℚ)
    (hc : start + duration ≤ e.start ∨ start ≥ e.stop) :
    overlapLoad (e :: rest) start duration = overlapLoad rest start duration := by
  unfold overlapLoad
  rw [List.filter_cons_of_neg (by simp only [decide_eq_true_eq, not_not]; exact hc)]

theorem loadB_eq (sched : List Entry) (start duration : ℚ) :
    loadB sched start duration = overlapLoad sched start duration := by
  suffices h : ∀ (l : List Entry) (n : Nat),
      l.foldl (fun acc e =>
        if start + duration ≤ e.start ∨ start ≥ e.stop then acc else acc + e.qubits) n =
      n + overlapLoad l start duration by
    simpa using h sched 0
  intro l
  induction l with
  | nil => intro n; simp [overlapLoad]
  | cons e rest ih =>
    intro n
    simp only [List.foldl_cons]
    by_cases hc : start + duration ≤ e.start ∨ start ≥ e.stop
    · rw [if_pos hc, ih, overlapLoad_cons_neg e rest start duration hc]
    · rw [if_neg hc, ih, overlapLoad_cons_pos e rest start duration hc]
      omega

theorem loadC_eq_loadB (sched : List Entry) (t duration : ℚ) :
    loadC sched t duration = loadB sched t duration := by
  induction sched with
  | nil => rfl
  | cons e rest ih =>
    by_cases hc : t + duration ≤ e.start ∨ t ≥ e.stop
    · rw [loadB_eq] at *
      rw [overlapLoad_cons_neg e rest t duration hc, ← ih]
      simp only [loadC, if_pos hc]
    · rw [loadB_eq] at *
      rw [overlapLoad_cons_pos e rest t duration hc, ← ih]
      simp only [loadC, if_neg hc]

theorem insertBy_perm {α : Type} (lt : α → α → Bool) (a : α) (l : List α) :
    List.Perm (insertBy lt a l) (a :: l) := by
  induction l with
  | nil => rfl
  | cons b rest ih =>
    by_cases hc : lt a b
    · simp [insertBy, hc]
    · simp only [insertBy, if_neg hc]
      exact (ih.cons b).trans (List.Perm.swap a b rest)

theorem insSortBy_perm {α : Type} (lt : α → α → Bool) (l : List α) :
    List.Perm (insSortBy lt l) l := by
  induction l with
  | nil => rfl
  | cons a rest ih =>
    exact (insertBy_perm lt a (insSortBy lt rest)).trans (ih.cons a)

/-! ## ILP extraction (`_extract_gurobi_results` and `_read_solution_file`) -/

/-- The machine-assignment search of `_read_solution_file`: the first machine
whose solved `x_ik_<idx>_<machine>` value is at least `0.5`
(`variables.get(machine_key, 0) >= 0.5`, then `break`); `xval` is the solved
value of the job's `x` variable for each machine, with the `.get` default `0`
folded in. -/
def fileAssignedMachine (xval : String → ℚ) (machines : List String) : Option String :=
  machines.find? (fun m => (1 : ℚ)/2 ≤ xval m)

/-- The `x_`-variable loop of `_extract_gurobi_results`: for every solved
variable (here `(job, machine, value)` triples, the parsed
`x_ik_<job>_<machine>` names in `problem.variables()` order) with
`var.varValue > 0.0`, the job's machine is overwritten; the last positive
entry wins.  `""` is the initial `machine=""` of the `JobResultInfo`. -/
def gurobiAssignMachine (vars : List (String × String × ℚ)) (job : String) : String :=
  vars.foldl (fun acc v => if v.1 = job ∧ 0 < v.2.2 then v.2.1 else acc) ""

end Sched

namespace Sched

/-- A job whose demand exceeds a machine's capacity can never pass the
feasibility check on that machine, so the benchmarks probe loop never
returns, whatever the fuel. -/
theorem probeB_none {cap q : Nat} (h : cap < q) :
    ∀ (fuel t : Nat) (sched : List Entry), findEarliestStartB fuel sched cap q t = none := by
  intro fuel
  induction fuel with
  | zero => intro t sched; rfl
  | succ n ih =>
    intro t sched
    rw [findEarliestStartB, if_neg, ih]
    simp only [can_run_at_time, decide_eq_true_eq]
    omega

/-- Same divergence for the component probe loop. -/
theorem probeC_none {cap q : Nat} (h : cap < q) :
    ∀ (fuel : Nat) (sched : List Entry) (b : ℚ) (t : Nat),
      findEarliestStartC fuel sched cap q b t = none := by
  intro fuel
  induction fuel with
  | zero => intro sched b t; rfl
  | succ n ih =>
    intro sched b t
    rw [findEarliestStartC, if_neg, ih]
    omega

/-- C6.  Feasibility primitive: `can_run_at_time` returns true iff the demand
plus the sum of the demands of the existing entries whose interval overlaps
the candidate interval `[start, start+duration)` is at most the capacity
(overlap unless candidate end ≤ existing start or candidate start ≥ existing
end); and the inline load computation of the component FFD's
`find_earliest_start` is the same predicate. -/
theorem feasibility_primitive_spec :
    ∀ (sched : List Entry) (cap q : Nat) (start duration : ℚ),
      (can_run_at_time sched cap q start duration = true ↔
        overlapLoad sched start duration + q ≤ cap)
      ∧ loadC sched start duration = loadB sched start duration := by
  intro sched cap q start duration
  refine ⟨?_, loadC_eq_loadB sched start duration⟩
  rw [can_run_at_time, loadB_eq, decide_eq_true_eq]

/-- C8 counterexample: the in-process extraction `_extract_gurobi_results`
treats the assignment variable `x` of job "1" on machine "A" with solved
value `0.25` as selected, although `0.25` is not at least `0.5`. -/
theorem extraction_threshold_counterexample :
    gurobiAssignMachine [("1", "A", 1/4)] "1" = "A" ∧ ¬((1 : ℚ)/2 ≤ 1/4) := by
  constructor
  · show (if ("1" = "1" ∧ (0 : ℚ) < 1/4) then "A" else "") = "A"
    rw [if_pos ⟨rfl, by norm_num⟩]
  · norm_num

/-- C8 amended: the solution-file reader `_read_solution_file` treats a binary
assignment variable as selected exactly when its solved value is at least
`0.5`, while `_extract_gurobi_results` treats an `x` variable as selected
exactly when its solved value is strictly positive (the last positive
assignment wins). -/
theorem extraction_thresholds :
    (∀ (xval : String → ℚ) (machines : List String),
        (fileAssignedMachine xval machines).isSome ↔ ∃ m ∈ machines, (1 : ℚ)/2 ≤ xval m)
    ∧ (∀ (vars : List (String × String × ℚ)) (job mach : String) (v : ℚ),
        gurobiAssignMachine (vars ++ [(job, mach, v)]) job =
          if 0 < v then mach else gurobiAssignMachine vars job) := by
  constructor
  · intro xval machines
    rw [fileAssignedMachine, List.find?_isSome]
    simp
  · intro vars job mach v
    rw [gurobiAssignMachine, gurobiAssignMachine, List.foldl_append]
    by_cases hv : 0 < v
    · simp [hv]
    · simp [hv]

/-- With a single pending task of 8 qubits and a single chip of capacity 7,
each MTMC pass leaves the state unchanged except for the clock, so the main
loop never terminates. -/
theorem mtmc_oversize_stuck :
    ∀ (fuel g : Nat) (done : List RTask),
      mtmcRun fuel { pending := [⟨"1", 8⟩], chips := [⟨"A", 7, []⟩], time := g, done := done }
        = none := by
  intro fuel
  induction fuel with
  | zero => intro g done; rfl
  | succ n ih =>
    intro g done
    have hstep : mtmcStep { pending := [⟨"1", 8⟩], chips := [⟨"A", 7, []⟩], time := g, done := done }
        = { pending := [⟨"1", 8⟩], chips := [⟨"A", 7, []⟩], time := g + 1, done := done } := by
      simp [mtmcStep, insSortBy, insertBy, decrementChip, MultiTaskMultiChipsPreAlloc,
        allocate_task]
    have hc : mtmcCond { pending := [⟨"1", 8⟩], chips := [⟨"A", 7, []⟩], time := g, done := done } = true := rfl
    rw [mtmcRun, if_pos hc, hstep, ih]

/-- C2 (code evaluated at the failing input): on a job of demand 8 and a
single machine of capacity 7, neither scheduler raises a `ResourceExceeded`
error; the component FFD, the benchmarks FFD and MTMC all fail to terminate
(`none` for every fuel value). -/
theorem resource_exceeded_guard_missing :
    (∀ fuel, schedule_jobs_parallel fuel [("1", 8)] [("A", 7)] 1 = none)
    ∧ (∀ fuel, schedule_jobs_ffd fuel [("1", 8)] [("A", 7)] = none)
    ∧ (∀ fuel, multi_task_multi_chip_scheduling fuel [("A", 7)] [⟨"1", 8⟩] = none) := by
  refine ⟨?_, ?_, ?_⟩
  · intro fuel
    have h := probeC_none (by decide : (7 : Nat) < 8) fuel
      (msLookup (initMS [("A", 7)]) "A") 1 0
    simp [schedule_jobs_parallel, parGo, insSortBy, insertBy, chooseMachineC,
      chooseMachineC.go, h]
  · intro fuel
    have h := probeB_none (by decide : (7 : Nat) < 8) fuel 0
      (msLookup (initMS [("A", 7)]) "A")
    simp [schedule_jobs_ffd, ffdGo, insSortBy, insertBy, chooseMachineB,
      chooseMachineB.go, h]
  · intro fuel
    have h := mtmc_oversize_stuck fuel 0 []
    simp only [multi_task_multi_chip_scheduling, List.map]
    rw [h]
    rfl

/-- C3 (code evaluated at the failing input): on the spec's end-to-end FFD
example — jobs `{"1":5, "2":8, "3":3}`, machines `{"A":10, "B":7}` — the
probe for job "2" (8 qubits) on machine "B" (capacity 7) never returns, so
both FFD schedulers fail to terminate instead of returning the expected
three-entry schedule. -/
theorem ffd_example_diverges :
    (∀ fuel, schedule_jobs_ffd fuel [("1", 5), ("2", 8), ("3", 3)] [("A", 10), ("B", 7)] = none)
    ∧ (∀ fuel,
        schedule_jobs_parallel fuel [("1", 5), ("2", 8), ("3", 3)] [("A", 10), ("B", 7)] 1
          = none) := by
  constructor
  · intro fuel
    match fuel with
    | 0 => rfl
    | n + 1 =>
      simp [schedule_jobs_ffd, ffdGo, insSortBy, insertBy, chooseMachineB,
        chooseMachineB.go, initMS, msLookup, findEarliestStartB, can_run_at_time, loadB,
        probeB_none (by decide : (7 : Nat) < 8)]
  · intro fuel
    match fuel with
    | 0 => rfl
    | n + 1 =>
      simp [schedule_jobs_parallel, parGo, insSortBy, insertBy, chooseMachineC,
        chooseMachineC.go, initMS, msLookup, findEarliestStartC, loadC,
        probeC_none (by decide : (7 : Nat) < 8)]

/-- C9.  The per-machine earliest-start probe of the component FFD loops
forever on any machine whose capacity is smaller than the job's demand
(first conjunct); consequently, on jobs `{"1": 8}` with machines iterated as
`B: 7` then `A: 10`, the scheduler never terminates even though machine `A`
(capacity 10) could fit the job (second and third conjuncts): the infeasible
machine `B` is probed first and the probe never returns, so `A` is never
examined. -/
theorem ffd_probe_divergence :
    (∀ (fuel : Nat) (sched : List Entry) (cap q : Nat) (b : ℚ) (t : Nat), cap < q →
        findEarliestStartC fuel sched cap q b t = none)
    ∧ (∀ fuel, schedule_jobs_parallel fuel [("1", 8)] [("B", 7), ("A", 10)] 1 = none)
    ∧ (8 : Nat) ≤ 10 := by
  refine ⟨fun fuel sched cap q b t h => probeC_none h fuel sched b t, ?_, by decide⟩
  intro fuel
  simp [schedule_jobs_parallel, parGo, insSortBy, insertBy, chooseMachineC,
    chooseMachineC.go, initMS, msLookup, probeC_none (by decide : (7 : Nat) < 8)]

/-- Witness for C9 at a concrete input: capacity 7 is smaller than demand 8,
and the probe with fuel 5 on an empty machine schedule returns `none`. -/
theorem ffd_probe_divergence_witness :
    (7 : Nat) < 8 ∧ findEarliestStartC 5 [] 7 8 1 0 = none :=
  ⟨by decide, ffd_probe_divergence.1 5 [] 7 8 1 0 (by decide)⟩

/-! ## Characterization of the FFD machine-selection loop -/

/-- What the benchmarks machine loop guarantees about a selected candidate
`(t, machine, entry)`: the machine is one of the input machines, the probe on
its current schedule returned `t`, and the entry is exactly the dictionary
built in the loop body. -/
def goodCandB (machines : List (String × Nat)) (ms : List (String × List Entry))
    (fuel : Nat) (jid : String) (q : Nat) (p : Nat × String × Entry) : Prop :=
  ∃ cap, (p.2.1, cap) ∈ machines ∧
    findEarliestStartB fuel (msLookup ms p.2.1) cap q 0 = some p.1 ∧
    p.2.2 = { job := jid, qubits := q, machine := p.2.1, capacity := cap,
              start := (p.1 : ℚ), stop := (p.1 : ℚ) + (q : ℚ), duration := (q : ℚ) }

/-- Same for the component machine loop (`duration = q * b`). -/
def goodCandC (machines : List (String × Nat)) (ms : List (String × List Entry))
    (fuel : Nat) (jid : String) (q : Nat) (b : ℚ) (p : Nat × String × Entry) : Prop :=
  ∃ cap, (p.2.1, cap) ∈ machines ∧
    findEarliestStartC fuel (msLookup ms p.2.1) cap q b 0 = some p.1 ∧
    p.2.2 = { job := jid, qubits := q, machine := p.2.1, capacity := cap,
              start := (p.1 : ℚ), stop := (p.1 : ℚ) + (q : ℚ) * b, duration := (q : ℚ) * b }

theorem chooseB_go_good (fuel : Nat) (machines : List (String × Nat))
    (ms : List (String × List Entry)) (jid : String) (q : Nat) :
    ∀ (l : List (String × Nat)) (best : Option (Nat × String × Entry)) (m : String) (e : Entry),
      l ⊆ machines →
      (∀ x, best = some x → goodCandB machines ms fuel jid q x) →
      chooseMachineB.go fuel ms jid q l best = some (some (m, e)) →
      ∃ t, goodCandB machines ms fuel jid q (t, m, e) := by
  intro l
  induction l with
  | nil =>
    intro best m e _ hbest hgo
    match best, hgo with
    | some (t0, m0, e0), hgo =>
      simp only [chooseMachineB.go, Option.map_some, Option.some_inj] at hgo
      obtain ⟨rfl, rfl⟩ : m0 = m ∧ e0 = e := by
        simpa using congrArg id hgo
      exact ⟨t0, hbest _ rfl⟩
  | cons hd tl ih =>
    intro best m e hsub hbest hgo
    match hd with
    | (m0, cap0) =>
      rw [chooseMachineB.go] at hgo
      cases hp : findEarliestStartB fuel (msLookup ms m0) cap0 q 0 with
      | none => rw [hp] at hgo; exact absurd hgo (by simp)
      | some t0 =>
        rw [hp] at hgo
        have hm0 : ((m0, cap0) : String × Nat) ∈ machines := hsub (List.mem_cons_self _ _)
        have hcand : goodCandB machines ms fuel jid q
            (t0, m0,
              { job := jid, qubits := q, machine := m0, capacity := cap0,
                start := (t0 : ℚ), stop := (t0 : ℚ) + (q : ℚ), duration := (q : ℚ) }) :=
          ⟨cap0, hm0, hp, rfl⟩
        have hsub' : tl ⊆ machines := fun x hx => hsub (List.mem_cons_of_mem _ hx)
        match best with
        | none =>
          exact ih _ m e hsub' (fun x hx => by cases hx; exact hcand) hgo
        | some (t1, b1) =>
          simp only at hgo
          by_cases hlt : t0 < t1
          · rw [if_pos hlt] at hgo
            exact ih _ m e hsub' (fun x hx => by cases hx; exact hcand) hgo
          · rw [if_neg hlt] at hgo
            exact ih _ m e hsub' (fun x hx => by cases hx; exact hbest _ rfl) hgo

theorem chooseC_go_good (fuel : Nat) (machines : List (String × Nat))
    (ms : List (String × List Entry)) (jid : String) (q : Nat) (b : ℚ) :
    ∀ (l : List (String × Nat)) (best : Option (Nat × String × Entry)) (m : String) (e : Entry),
      l ⊆ machines →
      (∀ x, best = some x → goodCandC machines ms fuel jid q b x) →
      chooseMachineC.go fuel ms jid q b l best = some (some (m, e)) →
      ∃ t, goodCandC machines ms fuel jid q b (t, m, e) := by
  intro l
  induction l with
  | nil =>
    intro best m e _ hbest hgo
    match best, hgo with
    | some (t0, m0, e0), hgo =>
      simp only [chooseMachineC.go, Option.map_some, Option.some_inj] at hgo
      obtain ⟨rfl, rfl⟩ : m0 = m ∧ e0 = e := by
        simpa using congrArg id hgo
      exact ⟨t0, hbest _ rfl⟩
  | cons hd tl ih =>
    intro best m e hsub hbest hgo
    match hd with
    | (m0, cap0) =>
      rw [chooseMachineC.go] at hgo
      cases hp : findEarliestStartC fuel (msLookup ms m0) cap0 q b 0 with
      | none => rw [hp] at hgo; exact absurd hgo (by simp)
      | some t0 =>
        rw [hp] at hgo
        have hm0 : ((m0, cap0) : String × Nat) ∈ machines := hsub (List.mem_cons_self _ _)
        have hcand : goodCandC machines ms fuel jid q b
            (t0, m0,
              { job := jid, qubits := q, machine := m0, capacity := cap0,
                start := (t0 : ℚ), stop := (t0 : ℚ) + (q : ℚ) * b, duration := (q : ℚ) * b }) :=
          ⟨cap0, hm0, hp, rfl⟩
        have hsub' : tl ⊆ machines := fun x hx => hsub (List.mem_cons_of_mem _ hx)
        match best with
        | none =>
          exact ih _ m e hsub' (fun x hx => by cases hx; exact hcand) hgo
        | some (t1, b1) =>
          simp only at hgo
          by_cases hlt : t0 < t1
          · rw [if_pos hlt] at hgo
            exact ih _ m e hsub' (fun x hx => by cases hx; exact hcand) hgo
          · rw [if_neg hlt] at hgo
            exact ih _ m e hsub' (fun x hx => by cases hx; exact hbest _ rfl) hgo

theorem chooseMachineB_good {fuel : Nat} {machines : List (String × Nat)}
    {ms : List (String × List Entry)} {jid : String} {q : Nat} {m : String} {e : Entry}
    (h : chooseMachineB fuel machines ms jid q = some (some (m, e))) :
    ∃ t, goodCandB machines ms fuel jid q (t, m, e) :=
  chooseB_go_good fuel machines ms jid q machines none m e (fun _ hx => hx)
    (fun x hx => by cases hx) h

theorem chooseMachineC_good {fuel : Nat} {machines : List (String × Nat)}
    {ms : List (String × List Entry)} {jid : String} {q : Nat} {b : ℚ} {m : String} {e : Entry}
    (h : chooseMachineC fuel machines ms jid q b = some (some (m, e))) :
    ∃ t, goodCandC machines ms fuel jid q b (t, m, e) :=
  chooseC_go_good fuel machines ms jid q b machines none m e (fun _ hx => hx)
    (fun x hx => by cases hx) h

/-- Every job of the (nonzero-demand) job list contributes exactly one entry,
carrying its job id, to the benchmarks FFD schedule, in job-list order. -/
theorem ffdGo_ids (fuel : Nat) (machines : List (String × Nat)) :
    ∀ (l : List (String × Nat)) (ms : List (String × List Entry)) (sched : List Entry)
      (s : List Entry),
      (∀ p ∈ l, p.2 ≠ 0) →
      ffdGo fuel machines l ms sched = some (.ok s) →
      s.map Entry.job = sched.map Entry.job ++ l.map Prod.fst := by
  intro l
  induction l with
  | nil =>
    intro ms sched s _ h
    simp only [ffdGo, Option.some_inj, FFDOut.ok.injEq] at h
    simp [← h]
  | cons hd tl ih =>
    intro ms sched s hpos h
    match hd with
    | (jid, q) =>
      rw [ffdGo, if_neg (by simpa using hpos (jid, q) (List.mem_cons_self _ _))] at h
      cases hc : chooseMachineB fuel machines ms jid q with
      | none => rw [hc] at h; exact absurd h (by simp)
      | some o =>
        cases o with
        | none => rw [hc] at h; exact absurd h (by simp)
        | some p =>
          match p with
          | (m, e) =>
            rw [hc] at h
            have hids := ih (msAppend ms m e) (sched ++ [e]) s
              (fun x hx => hpos x (List.mem_cons_of_mem _ hx)) h
            obtain ⟨t, cap, _, _, he⟩ := chooseMachineB_good hc
            have he' : e = ⟨jid, q, m, cap, (t : ℚ), (t : ℚ) + (q : ℚ), (q : ℚ)⟩ := he
            have hej : e.job = jid := by rw [he']
            rw [hids, List.map_append]
            simp [hej]

/-- Same for the component FFD. -/
theorem parGo_ids (fuel : Nat) (machines : List (String × Nat)) (b : ℚ) :
    ∀ (l : List (String × Nat)) (ms : List (String × List Entry)) (sched : List Entry)
      (s : List Entry),
      (∀ p ∈ l, p.2 ≠ 0) →
      parGo fuel machines b l ms sched = some (.ok s) →
      s.map Entry.job = sched.map Entry.job ++ l.map Prod.fst := by
  intro l
  induction l with
  | nil =>
    intro ms sched s _ h
    simp only [parGo, Option.some_inj, FFDOut.ok.injEq] at h
    simp [← h]
  | cons hd tl ih =>
    intro ms sched s hpos h
    match hd with
    | (jid, q) =>
      rw [parGo, if_neg (by simpa using hpos (jid, q) (List.mem_cons_self _ _))] at h
      cases hc : chooseMachineC fuel machines ms jid q b with
      | none => rw [hc] at h; exact absurd h (by simp)
      | some o =>
        cases o with
        | none => rw [hc] at h; exact absurd h (by simp)
        | some p =>
          match p with
          | (m, e) =>
            rw [hc] at h
            have h' : (if m = "" then some FFDOut.error
                else parGo fuel machines b tl (msAppend ms m e) (sched ++ [e]))
                = some (FFDOut.ok s) := h
            by_cases hm : m = ""
            · rw [if_pos hm] at h'; exact absurd h' (by simp)
            · rw [if_neg hm] at h'
              have hids := ih (msAppend ms m e) (sched ++ [e]) s
                (fun x hx => hpos x (List.mem_cons_of_mem _ hx)) h'
              obtain ⟨t, cap, _, _, he⟩ := chooseMachineC_good hc
              have he' : e = ⟨jid, q, m, cap, (t : ℚ), (t : ℚ) + (q : ℚ) * b, (q : ℚ) * b⟩ := he
              have hej : e.job = jid := by rw [he']
              rw [hids, List.map_append]
              simp [hej]

/-- C4.  Coverage: for every valid input (positive demands, at least one
machine), the multiset of job ids of the schedule returned by either FFD
implementation is exactly the multiset of input job ids — each input job
appears exactly once, none dropped or duplicated. -/
theorem ffd_coverage :
    (∀ (fuel : Nat) (jobs machines : List (String × Nat)) (s : List Entry),
        (∀ p ∈ jobs, 0 < p.2) → machines ≠ [] →
        schedule_jobs_ffd fuel jobs machines = some (.ok s) →
        List.Perm (s.map Entry.job) (jobs.map Prod.fst))
    ∧ (∀ (fuel : Nat) (jobs machines : List (String × Nat)) (b : ℚ) (s : List Entry),
        (∀ p ∈ jobs, 0 < p.2) → machines ≠ [] →
        schedule_jobs_parallel fuel jobs machines b = some (.ok s) →
        List.Perm (s.map Entry.job) (jobs.map Prod.fst)) := by
  constructor
  · intro fuel jobs machines s hpos _ h
    have hperm := insSortBy_perm (fun a b : String × Nat => b.2 < a.2) jobs
    have hids := ffdGo_ids fuel machines _ (initMS machines) [] s
      (fun p hp => Nat.pos_iff_ne_zero.mp (hpos p (hperm.mem_iff.mp hp))) h
    rw [hids]
    simpa using hperm.map Prod.fst
  · intro fuel jobs machines b s hpos _ h
    have hperm := insSortBy_perm (fun a b : String × Nat => b.2 < a.2) jobs
    have hids := parGo_ids fuel machines b _ (initMS machines) [] s
      (fun p hp => Nat.pos_iff_ne_zero.mp (hpos p (hperm.mem_iff.mp hp))) h
    rw [hids]
    simpa using hperm.map Prod.fst

/-- Witness for C4 at a concrete input: one job of demand 2, one machine of
capacity 3; the run terminates and the output ids are a permutation of the
input ids. -/
theorem ffd_coverage_witness :
    schedule_jobs_ffd 10 [("1", 2)] [("A", 3)]
        = some (.ok [{ job := "1", qubits := 2, machine := "A", capacity := 3,
                       start := 0, stop := 2, duration := 2 }])
    ∧ List.Perm
        ([({ job := "1", qubits := 2, machine := "A", capacity := 3,
             start := 0, stop := 2, duration := 2 } : Entry)].map Entry.job)
        ([("1", 2)].map Prod.fst) := by
  have hrun : schedule_jobs_ffd 10 [("1", 2)] [("A", 3)]
      = some (.ok [{ job := "1", qubits := 2, machine := "A", capacity := 3,
                     start := 0, stop := 2, duration := 2 }]) := by
    norm_num [schedule_jobs_ffd, ffdGo, chooseMachineB, chooseMachineB.go, findEarliestStartB,
      can_run_at_time, loadB, insSortBy, insertBy, initMS, msLookup, msAppend]
  exact ⟨hrun, ffd_coverage.1 10 [("1", 2)] [("A", 3)] _
    (by decide) (by decide) hrun⟩

/-! ## Sortedness of the stable insertion sort -/

theorem insertBy_pairwise {α : Type} (lt : α → α → Bool)
    (h2 : ∀ a b c, lt a b = true → lt c b = false → lt c a = false)
    (hasym : ∀ a b, lt a b = true → lt b a = false) (a : α) :
    ∀ l : List α, l.Pairwise (fun x y => lt y x = false) →
      (insertBy lt a l).Pairwise (fun x y => lt y x = false) := by
  intro l
  induction l with
  | nil => intro _; simp [insertBy]
  | cons b l' ih =>
    intro hp
    rw [List.pairwise_cons] at hp
    obtain ⟨hb, hp'⟩ := hp
    by_cases hc : lt a b
    · rw [insertBy, if_pos hc]
      refine List.Pairwise.cons ?_ (List.Pairwise.cons hb hp')
      intro x hx
      rcases List.mem_cons.mp hx with rfl | hx'
      · exact hasym a x hc
      · exact h2 a b x hc (hb x hx')
    · rw [insertBy, if_neg hc]
      refine List.Pairwise.cons ?_ (ih hp')
      intro x hx
      rcases List.mem_cons.mp ((insertBy_perm lt a l').mem_iff.mp hx) with rfl | hx'
      · exact Bool.eq_false_iff.mpr hc
      · exact hb x hx'

theorem insSortBy_pairwise {α : Type} (lt : α → α → Bool)
    (h2 : ∀ a b c, lt a b = true → lt c b = false → lt c a = false)
    (hasym : ∀ a b, lt a b = true → lt b a = false) :
    ∀ l : List α, (insSortBy lt l).Pairwise (fun x y => lt y x = false) := by
  intro l
  induction l with
  | nil => simp [insSortBy]
  | cons a l' ih => exact insertBy_pairwise lt h2 hasym a _ ih

/-- Python's `max(iterable, key=...)` keeps the first maximum; the fold in
`allocate_task` returns an element of the list whose capacity bounds every
other element's capacity. -/
theorem foldl_max_chip (rest : List Chip) :
    ∀ c0 : Chip,
      (rest.foldl (fun best c => if best.capacity < c.capacity then c else best) c0) ∈ c0 :: rest
      ∧ ∀ c ∈ c0 :: rest,
          c.capacity ≤
            (rest.foldl (fun best c => if best.capacity < c.capacity then c else best) c0).capacity := by
  induction rest with
  | nil => intro c0; exact ⟨List.mem_singleton_self c0, by simp⟩
  | cons c rest' ih =>
    intro c0
    rw [List.foldl_cons]
    obtain ⟨hmem, hbound⟩ := ih (if c0.capacity < c.capacity then c else c0)
    constructor
    · rcases List.mem_cons.mp hmem with h | h
      · rw [h]
        by_cases hcc : c0.capacity < c.capacity
        · simp [hcc]
        · simp [hcc]
      · exact List.mem_cons_of_mem _ (List.mem_cons_of_mem _ h)
    · intro x hx
      rcases List.mem_cons.mp hx with rfl | hx'
      · refine le_trans ?_ (hbound _ (List.mem_cons_self _ _))
        by_cases hcc : x.capacity < c.capacity
        · rw [if_pos hcc]; exact le_of_lt hcc
        · rw [if_neg hcc]
      · rcases List.mem_cons.mp hx' with rfl | hx''
        · refine le_trans ?_ (hbound _ (List.mem_cons_self _ _))
          by_cases hcc : c0.capacity < x.capacity
          · rw [if_pos hcc]
          · rw [if_neg hcc]; omega
        · exact hbound x (List.mem_cons_of_mem _ hx'')

/-- The sorted tasklist of a tick is ascending in the job name and a
permutation of the pending list. -/
theorem insSortByName_sorted (pending : List Task) :
    List.Perm (insSortBy (fun a b => a.name < b.name) pending) pending
    ∧ (insSortBy (fun a b => a.name < b.name) pending).Pairwise
        (fun a b => a.name ≤ b.name) := by
  refine ⟨insSortBy_perm _ pending, ?_⟩
  have hp := insSortBy_pairwise (fun a b : Task => decide (a.name < b.name))
    (by
      intro a b c hab hcb
      rw [decide_eq_true_eq] at hab
      rw [decide_eq_false_iff_not] at hcb ⊢
      intro hca
      exact hcb (hca.trans hab))
    (by
      intro a b hab
      rw [decide_eq_true_eq] at hab
      rw [decide_eq_false_iff_not]
      exact lt_asymm hab)
    pending
  exact hp.imp (fun h => le_of_not_lt (by simpa using h))

/-- A successful `allocate_task` selects a fitting chip of maximal remaining
capacity, records `start = g`, `end = g + qubits`, `time_left = qubits`, and
deducts the demand from the selected chip. -/
theorem allocate_task_some {task : Task} {chips : List Chip} {g : Nat} {r : RTask}
    {chips' : List Chip} (h : allocate_task task chips g = (some r, chips')) :
    ∃ sel ∈ chips, task.qubits ≤ sel.capacity
      ∧ (∀ c ∈ chips, task.qubits ≤ c.capacity → c.capacity ≤ sel.capacity)
      ∧ r = ⟨task.name, task.qubits, sel.name, sel.capacity, (task.qubits : Int),
             g, g + task.qubits⟩
      ∧ chips' = chips.map (fun c =>
          if c.name = sel.name then
            { c with capacity := c.capacity - task.qubits,
                     running_tasks := c.running_tasks ++ [r] }
          else c) := by
  rw [allocate_task] at h
  cases hfil : chips.filter (fun c => task.qubits ≤ c.capacity) with
  | nil => rw [hfil] at h; exact absurd h (by simp)
  | cons c0 rest =>
    rw [hfil] at h
    simp only [Prod.mk.injEq, Option.some_inj] at h
    obtain ⟨hr, hchips⟩ := h
    set sel := rest.foldl (fun best c => if best.capacity < c.capacity then c else best) c0
      with hsel
    have hfold := foldl_max_chip rest c0
    have hselmem : sel ∈ chips.filter (fun c => task.qubits ≤ c.capacity) := by
      rw [hfil]; exact hfold.1
    cases hr
    refine ⟨sel, (List.mem_filter.mp hselmem).1, ?_, ?_, rfl, hchips.symm⟩
    · have := (List.mem_filter.mp hselmem).2
      simpa using this
    · intro c hc hfit
      have : c ∈ chips.filter (fun c => task.qubits ≤ c.capacity) :=
        List.mem_filter.mpr ⟨hc, by simpa using hfit⟩
      rw [hfil] at this
      exact hfold.2 c this

/-- A task that fits some chip is allocated. -/
theorem allocate_task_fits {task : Task} {chips : List Chip} {g : Nat}
    (hex : ∃ c ∈ chips, task.qubits ≤ c.capacity) :
    ∃ r chips', allocate_task task chips g = (some r, chips') := by
  rw [allocate_task]
  cases hfil : chips.filter (fun c => task.qubits ≤ c.capacity) with
  | nil =>
    obtain ⟨c, hc, hfit⟩ := hex
    have : c ∈ chips.filter (fun c => task.qubits ≤ c.capacity) :=
      List.mem_filter.mpr ⟨hc, by simpa using hfit⟩
    rw [hfil] at this
    exact absurd this (by simp)
  | cons c0 rest => exact ⟨_, _, rfl⟩

/-- A task that fits no chip is left pending with the chips untouched. -/
theorem allocate_task_nofit {task : Task} {chips : List Chip} {g : Nat}
    (hall : ∀ c ∈ chips, ¬task.qubits ≤ c.capacity) :
    allocate_task task chips g = (none, chips) := by
  rw [allocate_task]
  have hfil : chips.filter (fun c => task.qubits ≤ c.capacity) = [] := by
    rw [List.filter_eq_nil_iff]
    intro c hc
    simpa using hall c hc
  rw [hfil]

/-- C7.  MTMC per-tick allocation policy.  First conjunct: the list the tick
processes is the pending list stably sorted in ascending lexicographic order
of the job identifier string.  Second conjunct: a successful `allocate_task`
picks a chip that fits the demand and has the greatest remaining capacity
among the fitting chips, deducts the demand from that chip, and records
`start = current tick`, `end = start + demand`, `time_left = demand`.  Third
and fourth conjuncts: a task is allocated exactly when some chip still fits
its demand. -/
theorem mtmc_tick_policy :
    (∀ pending : List Task,
        List.Perm (insSortBy (fun a b => a.name < b.name) pending) pending
        ∧ (insSortBy (fun a b => a.name < b.name) pending).Pairwise
            (fun a b => a.name ≤ b.name))
    ∧ (∀ (task : Task) (chips : List Chip) (g : Nat) (r : RTask) (chips' : List Chip),
        allocate_task task chips g = (some r, chips') →
        ∃ sel ∈ chips, task.qubits ≤ sel.capacity
          ∧ (∀ c ∈ chips, task.qubits ≤ c.capacity → c.capacity ≤ sel.capacity)
          ∧ r = ⟨task.name, task.qubits, sel.name, sel.capacity, (task.qubits : Int),
                 g, g + task.qubits⟩
          ∧ chips' = chips.map (fun c =>
              if c.name = sel.name then
                { c with capacity := c.capacity - task.qubits,
                         running_tasks := c.running_tasks ++ [r] }
              else c))
    ∧ (∀ (task : Task) (chips : List Chip) (g : Nat),
        (∃ c ∈ chips, task.qubits ≤ c.capacity) →
        ∃ r chips', allocate_task task chips g = (some r, chips'))
    ∧ (∀ (task : Task) (chips : List Chip) (g : Nat),
        (∀ c ∈ chips, ¬task.qubits ≤ c.capacity) →
        allocate_task task chips g = (none, chips)) :=
  ⟨insSortByName_sorted,
   fun _ _ _ _ _ h => allocate_task_some h,
   fun _ _ _ hex => allocate_task_fits hex,
   fun _ _ _ hall => allocate_task_nofit hall⟩

/-- Witness for C7 at a concrete input: a task of 2 qubits is allocated at
tick 0 on the single chip "A" of remaining capacity 3. -/
theorem mtmc_tick_policy_witness :
    allocate_task ⟨"1", 2⟩ [⟨"A", 3, []⟩] 0
        = (some ⟨"1", 2, "A", 3, 2, 0, 2⟩, [⟨"A", 1, [⟨"1", 2, "A", 3, 2, 0, 2⟩]⟩])
    ∧ ∃ sel ∈ [(⟨"A", 3, []⟩ : Chip)], (⟨"1", 2⟩ : Task).qubits ≤ sel.capacity
        ∧ (∀ c ∈ [(⟨"A", 3, []⟩ : Chip)],
            (⟨"1", 2⟩ : Task).qubits ≤ c.capacity → c.capacity ≤ sel.capacity)
        ∧ (⟨"1", 2, "A", 3, 2, 0, 2⟩ : RTask)
            = ⟨(⟨"1", 2⟩ : Task).name, (⟨"1", 2⟩ : Task).qubits, sel.name, sel.capacity,
               ((⟨"1", 2⟩ : Task).qubits : Int), 0, 0 + (⟨"1", 2⟩ : Task).qubits⟩
        ∧ [(⟨"A", 1, [⟨"1", 2, "A", 3, 2, 0, 2⟩]⟩ : Chip)]
            = [(⟨"A", 3, []⟩ : Chip)].map (fun c =>
                if c.name = sel.name then
                  { c with capacity := c.capacity - (⟨"1", 2⟩ : Task).qubits,
                           running_tasks := c.running_tasks ++ [⟨"1", 2, "A", 3, 2, 0, 2⟩] }
                else c) := by
  have h : allocate_task ⟨"1", 2⟩ [⟨"A", 3, []⟩] 0
      = (some ⟨"1", 2, "A", 3, 2, 0, 2⟩, [⟨"A", 1, [⟨"1", 2, "A", 3, 2, 0, 2⟩]⟩]) := by
    decide
  exact ⟨h, mtmc_tick_policy.2.1 ⟨"1", 2⟩ [⟨"A", 3, []⟩] 0 _ _ h⟩

/-! ## Non-termination of MTMC on a zero-demand task (C10) -/

/-- The non-termination invariant: a zero-demand task is still pending, or
some chip holds a running task whose `time_left` has already reached zero or
gone negative (such a task can never satisfy the `time_left == 0` completion
test again after the next decrement). -/
def MtmcBad (st : MState) : Prop :=
  (∃ task ∈ st.pending, task.qubits = 0)
  ∨ ∃ c ∈ st.chips, ∃ r ∈ c.running_tasks, r.time_left ≤ 0

theorem mtmcBad_cond {st : MState} (h : MtmcBad st) : mtmcCond st = true := by
  rcases h with ⟨task, htask, _⟩ | ⟨c, hc, r, hr, _⟩
  · have : ¬st.pending.isEmpty := by
      cases hp : st.pending with
      | nil => rw [hp] at htask; cases htask
      | cons a l => simp [hp]
    simp [mtmcCond, this]
  · have : st.chips.any (fun c => !c.running_tasks.isEmpty) = true := by
      rw [List.any_eq_true]
      refine ⟨c, hc, ?_⟩
      cases hrt : c.running_tasks with
      | nil => rw [hrt] at hr; cases hr
      | cons a l => simp [hrt]
    simp [mtmcCond, this]

/-- A running task with non-positive `time_left` survives the completion
sweep with strictly smaller (hence still non-positive) `time_left`. -/
theorem decrementChip_keeps_bad {c : Chip} {r : RTask} (hr : r ∈ c.running_tasks)
    (h : r.time_left ≤ 0) :
    ∃ r' ∈ (decrementChip c).running_tasks, r'.time_left ≤ 0 := by
  refine ⟨{ r with time_left := r.time_left - 1 }, ?_, by simp; omega⟩
  simp only [decrementChip]
  rw [List.mem_filter]
  constructor
  · exact List.mem_map_of_mem _ hr
  · simp
    omega

/-- `allocate_task` never removes a running task from any chip. -/
theorem allocate_task_keeps_running (task : Task) (chips : List Chip) (g : Nat)
    {c : Chip} {r : RTask} (hc : c ∈ chips) (hr : r ∈ c.running_tasks) :
    ∃ c' ∈ (allocate_task task chips g).2, r ∈ c'.running_tasks := by
  cases hal : allocate_task task chips g with
  | mk o chips' =>
    cases o with
    | none =>
      have : chips' = chips := by
        rw [allocate_task] at hal
        cases hfil : chips.filter (fun c => task.qubits ≤ c.capacity) with
        | nil => rw [hfil] at hal; simpa using hal.symm
        | cons c0 rest => rw [hfil] at hal; exact absurd hal (by simp)
      exact ⟨c, this ▸ hc, hr⟩
    | some r0 =>
      obtain ⟨sel, _, _, _, _, hchips'⟩ := allocate_task_some hal
      by_cases hn : c.name = sel.name
      · refine ⟨{ c with capacity := c.capacity - task.qubits, running_tasks := c.running_tasks ++ [r0] }, ?_, List.mem_append_left _ hr⟩
        show _ ∈ chips'
        rw [hchips']
        refine List.mem_map.mpr ⟨c, hc, ?_⟩
        show (if c.name = sel.name then { c with capacity := c.capacity - task.qubits, running_tasks := c.running_tasks ++ [r0] } else c) = _
        rw [if_pos hn]
      · refine ⟨c, ?_, hr⟩
        show _ ∈ chips'
        rw [hchips']
        refine List.mem_map.mpr ⟨c, hc, ?_⟩
        show (if c.name = sel.name then { c with capacity := c.capacity - task.qubits, running_tasks := c.running_tasks ++ [r0] } else c) = _
        rw [if_neg hn]

/-- Unfolding equations for the allocation fold. -/
theorem preAlloc_cons_some {task : Task} {rest : List Task} {chips : List Chip} {g : Nat}
    {r0 : RTask} {chips' : List Chip} (hal : allocate_task task chips g = (some r0, chips')) :
    MultiTaskMultiChipsPreAlloc (task :: rest) chips g =
      (r0 :: (MultiTaskMultiChipsPreAlloc rest chips' g).1,
       (MultiTaskMultiChipsPreAlloc rest chips' g).2.1,
       (MultiTaskMultiChipsPreAlloc rest chips' g).2.2) := by
  rw [MultiTaskMultiChipsPreAlloc, hal]

theorem preAlloc_cons_none {task : Task} {rest : List Task} {chips : List Chip} {g : Nat}
    {chips' : List Chip} (hal : allocate_task task chips g = (none, chips')) :
    MultiTaskMultiChipsPreAlloc (task :: rest) chips g =
      ((MultiTaskMultiChipsPreAlloc rest chips' g).1,
       task :: (MultiTaskMultiChipsPreAlloc rest chips' g).2.1,
       (MultiTaskMultiChipsPreAlloc rest chips' g).2.2) := by
  rw [MultiTaskMultiChipsPreAlloc, hal]

/-- `MultiTaskMultiChipsPreAlloc` never removes a running task. -/
theorem preAlloc_keeps_running :
    ∀ (tasklist : List Task) (chips : List Chip) (g : Nat) {c : Chip} {r : RTask},
      c ∈ chips → r ∈ c.running_tasks →
      ∃ c' ∈ (MultiTaskMultiChipsPreAlloc tasklist chips g).2.2, r ∈ c'.running_tasks := by
  intro tasklist
  induction tasklist with
  | nil => intro chips g c r hc hr; exact ⟨c, hc, hr⟩
  | cons task rest ih =>
    intro chips g c r hc hr
    rw [MultiTaskMultiChipsPreAlloc]
    obtain ⟨c1, hc1, hr1⟩ := allocate_task_keeps_running task chips g hc hr
    cases hal : allocate_task task chips g with
    | mk o chips' =>
      rw [hal] at hc1
      cases o with
      | some r0 =>
        simp only
        obtain ⟨c2, hc2, hr2⟩ := ih chips' g hc1 hr1
        cases hpre : MultiTaskMultiChipsPreAlloc rest chips' g with
        | mk a nc =>
          rw [hpre] at hc2
          exact ⟨c2, hc2, hr2⟩
      | none =>
        simp only
        obtain ⟨c2, hc2, hr2⟩ := ih chips' g hc1 hr1
        cases hpre : MultiTaskMultiChipsPreAlloc rest chips' g with
        | mk a nc =>
          rw [hpre] at hc2
          exact ⟨c2, hc2, hr2⟩

/-- A zero-demand task in the tasklist leaves the allocation phase in a bad
position: it either stays pending, or it was allocated with
`time_left = 0` and now sits in some chip's running list. -/
theorem preAlloc_bad :
    ∀ (tasklist : List Task) (chips : List Chip) (g : Nat),
      (∃ task ∈ tasklist, task.qubits = 0) →
      (∃ task ∈ (MultiTaskMultiChipsPreAlloc tasklist chips g).2.1, task.qubits = 0)
      ∨ ∃ c ∈ (MultiTaskMultiChipsPreAlloc tasklist chips g).2.2,
          ∃ r ∈ c.running_tasks, r.time_left ≤ 0 := by
  intro tasklist
  induction tasklist with
  | nil => intro chips g h; obtain ⟨task, htask, _⟩ := h; cases htask
  | cons task rest ih =>
    intro chips g h
    obtain ⟨t0, ht0, h0⟩ := h
    rcases List.mem_cons.mp ht0 with rfl | hrest
    · -- the zero-demand task is the head
      cases hal : allocate_task t0 chips g with
      | mk o chips' =>
        cases o with
        | some r0 =>
          -- allocated: `time_left = qubits = 0`, and `r0` sits in the selected
          -- chip's running list, where it stays for the rest of the fold
          obtain ⟨sel, hselmem, _, _, hr0, hchips'⟩ := allocate_task_some hal
          have hr0tl : r0.time_left ≤ 0 := by rw [hr0]; simp [h0]
          have hin : ∃ c ∈ chips', r0 ∈ c.running_tasks := by
            refine ⟨{ sel with capacity := sel.capacity - t0.qubits, running_tasks := sel.running_tasks ++ [r0] }, ?_, ?_⟩
            · rw [hchips']
              refine List.mem_map.mpr ⟨sel, hselmem, ?_⟩
              show (if sel.name = sel.name then { sel with capacity := sel.capacity - t0.qubits, running_tasks := sel.running_tasks ++ [r0] } else sel) = _
              rw [if_pos rfl]
            · exact List.mem_append_right _ (List.mem_singleton_self r0)
          obtain ⟨c1, hc1, hr1⟩ := hin
          obtain ⟨c2, hc2, hr2⟩ := preAlloc_keeps_running rest chips' g hc1 hr1
          right
          rw [preAlloc_cons_some hal]
          exact ⟨c2, hc2, r0, hr2, hr0tl⟩
        | none =>
          -- not allocated: the zero-demand task goes straight to `no_execute`
          left
          rw [preAlloc_cons_none hal]
          exact ⟨t0, List.mem_cons_self _ _, h0⟩
    · -- the zero-demand task is in the tail: use the induction hypothesis
      cases hal : allocate_task task chips g with
      | mk o chips' =>
        have hih := ih chips' g ⟨t0, hrest, h0⟩
        cases o with
        | some r0 =>
          rw [preAlloc_cons_some hal]
          exact hih
        | none =>
          rw [preAlloc_cons_none hal]
          rcases hih with ⟨t1, ht1, h1⟩ | hr
          · exact Or.inl ⟨t1, List.mem_cons_of_mem _ ht1, h1⟩
          · exact Or.inr hr

/-- One MTMC pass preserves the non-termination invariant. -/
theorem mtmcBad_step {st : MState} (h : MtmcBad st) : MtmcBad (mtmcStep st) := by
  rcases h with ⟨t0, ht0, h0⟩ | ⟨c, hc, r, hr, hrtl⟩
  · -- a zero-demand task is pending: after sorting it is still in the
    -- tasklist handed to the allocation phase
    have hsort : t0 ∈ insSortBy (fun a b => a.name < b.name) st.pending :=
      (insSortBy_perm _ st.pending).mem_iff.mpr ht0
    have hb := preAlloc_bad (insSortBy (fun a b => a.name < b.name) st.pending)
      (st.chips.map decrementChip) st.time ⟨t0, hsort, h0⟩
    rw [mtmcStep]
    cases hpre : MultiTaskMultiChipsPreAlloc (insSortBy (fun a b => a.name < b.name) st.pending)
        (st.chips.map decrementChip) st.time with
    | mk a nc =>
      rw [hpre] at hb
      rcases hb with ⟨t1, ht1, h1⟩ | ⟨c1, hc1, r1, hr1, h1⟩
      · exact Or.inl ⟨t1, ht1, h1⟩
      · exact Or.inr ⟨c1, hc1, r1, hr1, h1⟩
  · -- a stuck running task survives the sweep and the allocation phase
    obtain ⟨r', hr', hrtl'⟩ := decrementChip_keeps_bad hr hrtl
    have hc' : decrementChip c ∈ st.chips.map decrementChip := List.mem_map_of_mem _ hc
    obtain ⟨c2, hc2, hr2⟩ := preAlloc_keeps_running
      (insSortBy (fun a b => a.name < b.name) st.pending)
      (st.chips.map decrementChip) st.time hc' hr'
    rw [mtmcStep]
    cases hpre : MultiTaskMultiChipsPreAlloc (insSortBy (fun a b => a.name < b.name) st.pending)
        (st.chips.map decrementChip) st.time with
    | mk a nc =>
      rw [hpre] at hc2
      exact Or.inr ⟨c2, hc2, r', hr2, hrtl'⟩

/-- In a bad state the loop condition is always true, so the fueled loop
never returns, whatever the fuel. -/
theorem mtmcBad_run : ∀ (fuel : Nat) (st : MState), MtmcBad st → mtmcRun fuel st = none := by
  intro fuel
  induction fuel with
  | zero => intro st h; rw [mtmcRun, if_pos (mtmcBad_cond h)]
  | succ n ih => intro st h; rw [mtmcRun, if_pos (mtmcBad_cond h)]; exact ih _ (mtmcBad_step h)

/-- C10.  For every input whose task list contains a zero-demand job, MTMC
never terminates: the zero-demand job is either never allocated (so it stays
pending forever) or allocated with `time_left = 0`, after which the per-tick
decrement makes `time_left` strictly negative and the completion test
`time_left == 0` can never fire, so the machine's running list never empties
and the main while-loop runs forever. -/
theorem mtmc_zero_demand_divergence :
    ∀ (chiplist : List (String × Nat)) (tasks : List Task) (fuel : Nat),
      (∃ task ∈ tasks, task.qubits = 0) →
      multi_task_multi_chip_scheduling fuel chiplist tasks = none := by
  intro chiplist tasks fuel hex
  rw [multi_task_multi_chip_scheduling, mtmcBad_run fuel _ (Or.inl hex)]
  rfl

/-- Witness for C10 at a concrete input: one zero-demand task, one chip. -/
theorem mtmc_zero_demand_divergence_witness :
    (∃ task ∈ [(⟨"1", 0⟩ : Task)], task.qubits = 0)
    ∧ multi_task_multi_chip_scheduling 7 [("A", 10)] [⟨"1", 0⟩] = none :=
  ⟨⟨⟨"1", 0⟩, List.mem_singleton_self _, rfl⟩,
    mtmc_zero_demand_divergence [("A", 10)] [⟨"1", 0⟩] 7
      ⟨⟨"1", 0⟩, List.mem_singleton_self _, rfl⟩⟩

/-! ## Capacity invariant for the FFD schedulers (C1, FFD part) -/

/-- The demand running at instant `t` in a per-machine entry list. -/
def pointLoad (l : List Entry) (t : ℚ) : Nat :=
  ((l.filter (fun e => e.start ≤ t ∧ t < e.stop)).map (fun e => e.qubits)).sum

/-- Every entry of `l` passed the feasibility check against the entries
inserted before it, with a consistent interval. -/
def MachOk (cap : Nat) (l : List Entry) : Prop :=
  ∀ (i : Nat) (h : i < l.length),
    (l.get ⟨i, h⟩).stop = (l.get ⟨i, h⟩).start + (l.get ⟨i, h⟩).duration
    ∧ loadB (l.take i) (l.get ⟨i, h⟩).start (l.get ⟨i, h⟩).duration
        + (l.get ⟨i, h⟩).qubits ≤ cap

theorem sum_filter_mono (P Q : Entry → Bool) :
    ∀ l : List Entry, (∀ e ∈ l, P e = true → Q e = true) →
      ((l.filter P).map (fun e => e.qubits)).sum ≤ ((l.filter Q).map (fun e => e.qubits)).sum := by
  intro l
  induction l with
  | nil => intro _; simp
  | cons e rest ih =>
    intro h
    have hrest := ih (fun x hx => h x (List.mem_cons_of_mem _ hx))
    by_cases hp : P e = true
    · rw [List.filter_cons_of_pos hp, List.filter_cons_of_pos (h e (List.mem_cons_self _ _) hp)]
      simpa using hrest
    · rw [List.filter_cons_of_neg (by simpa using hp)]
      by_cases hq : Q e = true
      · rw [List.filter_cons_of_pos hq]
        simp only [List.map_cons, List.sum_cons]
        omega
      · rw [List.filter_cons_of_neg (by simpa using hq)]
        exact hrest

/-- An instant inside the candidate interval only collects entries that
overlap the candidate interval. -/
theorem pointLoad_le_overlapLoad (l : List Entry) (s d t : ℚ) (hs : s ≤ t) (ht : t < s + d) :
    pointLoad l t ≤ overlapLoad l s d := by
  unfold pointLoad overlapLoad
  refine sum_filter_mono _ _ l ?_
  intro e _ hP
  rw [decide_eq_true_eq] at hP ⊢
  intro hcon
  rcases hcon with hpre | hpost
  · exact absurd (lt_of_lt_of_le ht (hpre.trans hP.1)) (lt_irrefl t)
  · exact absurd (lt_of_lt_of_le hP.2 (hpost.trans hs)) (lt_irrefl t)

theorem machOk_take (cap : Nat) (l : List Entry) (e : Entry) (h : MachOk cap (l ++ [e])) :
    MachOk cap l := by
  intro i hi
  have hi' : i < (l ++ [e]).length := by simp; omega
  have := h i hi'
  rw [List.get_eq_getElem] at this ⊢
  rw [List.getElem_append_left hi] at this
  rwa [List.take_append_of_le_length (le_of_lt hi)] at this

/-- The central capacity argument: if every entry passed the feasibility
check on insertion, the load at every instant stays within the capacity. -/
theorem machOk_pointLoad (cap : Nat) :
    ∀ l : List Entry, MachOk cap l → ∀ t : ℚ, pointLoad l t ≤ cap := by
  intro l
  induction l using List.reverseRecOn with
  | nil => intro _ t; simp [pointLoad]
  | append_singleton l e ih =>
    intro h t
    have hl := machOk_take cap l e h
    have hlen : l.length < (l ++ [e]).length := by simp
    have he := h l.length hlen
    rw [List.get_eq_getElem, List.getElem_append_right (le_refl l.length)] at he
    simp only [Nat.sub_self, List.getElem_singleton] at he
    rw [List.take_append_of_le_length (le_refl l.length), List.take_length] at he
    have hsplit : pointLoad (l ++ [e]) t = pointLoad l t + pointLoad [e] t := by
      unfold pointLoad
      rw [List.filter_append, List.map_append, List.sum_append]
    rw [hsplit]
    by_cases hc : e.start ≤ t ∧ t < e.stop
    · have h1 : pointLoad [e] t = e.qubits := by
        unfold pointLoad
        rw [List.filter_cons_of_pos (by simpa using hc)]
        simp
      have h2 : pointLoad l t ≤ overlapLoad l e.start e.duration := by
        refine pointLoad_le_overlapLoad l e.start e.duration t hc.1 ?_
        rw [← he.1]; exact hc.2
      rw [h1]
      have := he.2
      rw [loadB_eq] at this
      omega
    · have h1 : pointLoad [e] t = 0 := by
        unfold pointLoad
        rw [List.filter_cons_of_neg (by simpa using hc)]
        rfl
      rw [h1]
      have := ih hl t
      omega

theorem probeB_sound :
    ∀ (fuel t0 : Nat) {t : Nat} {sched : List Entry} {cap q : Nat},
      findEarliestStartB fuel sched cap q t0 = some t →
      loadB sched (t : ℚ) (q : ℚ) + q ≤ cap := by
  intro fuel
  induction fuel with
  | zero => intro t0 t sched cap q h; cases h
  | succ n ih =>
    intro t0 t sched cap q h
    rw [findEarliestStartB] at h
    by_cases hc : can_run_at_time sched cap q (t0 : ℚ) (q : ℚ) = true
    · rw [if_pos hc] at h
      cases h
      rw [can_run_at_time, decide_eq_true_eq] at hc
      exact hc
    · rw [if_neg hc] at h
      exact ih _ h

theorem probeC_sound :
    ∀ (fuel t0 : Nat) {t : Nat} {sched : List Entry} {cap q : Nat} {b : ℚ},
      findEarliestStartC fuel sched cap q b t0 = some t →
      loadB sched (t : ℚ) ((q : ℚ) * b) + q ≤ cap := by
  intro fuel
  induction fuel with
  | zero => intro t0 t sched cap q b h; cases h
  | succ n ih =>
    intro t0 t sched cap q b h
    rw [findEarliestStartC] at h
    by_cases hc : loadC sched (t0 : ℚ) ((q : ℚ) * b) + q ≤ cap
    · rw [if_pos hc] at h
      cases h
      rwa [loadC_eq_loadB] at hc
    · rw [if_neg hc] at h
      exact ih _ h

/-- In a machine map with distinct names (a Python dict), a name determines
its capacity. -/
theorem nodup_key_eq :
    ∀ {l : List (String × Nat)}, (l.map Prod.fst).Nodup →
      ∀ {m : String} {c1 c2 : Nat}, (m, c1) ∈ l → (m, c2) ∈ l → c1 = c2 := by
  intro l
  induction l with
  | nil => intro _ m c1 c2 h1; cases h1
  | cons hd tl ih =>
    intro hnd m c1 c2 h1 h2
    rw [List.map_cons, List.nodup_cons] at hnd
    rcases List.mem_cons.mp h1 with rfl | h1'
    · rcases List.mem_cons.mp h2 with heq | h2'
      · exact (Prod.ext_iff.mp heq).2.symm
      · exact absurd (List.mem_map_of_mem Prod.fst h2') (by simpa using hnd.1)
    · rcases List.mem_cons.mp h2 with rfl | h2'
      · exact absurd (List.mem_map_of_mem Prod.fst h1') (by simpa using hnd.1)
      · exact ih hnd.2 h1' h2'

/-- The invariant the FFD job loop maintains: the per-machine dictionary
mirrors the global schedule, and every machine's entries passed the
feasibility check on insertion. -/
def MSInv (machines : List (String × Nat)) (ms : List (String × List Entry))
    (sched : List Entry) : Prop :=
  ms.map Prod.fst = machines.map Prod.fst
  ∧ (∀ p ∈ ms, p.2 = sched.filter (fun e => e.machine = p.1))
  ∧ (∀ p ∈ machines, MachOk p.2 (sched.filter (fun e => e.machine = p.1)))

theorem msInv_init (machines : List (String × Nat)) : MSInv machines (initMS machines) [] := by
  refine ⟨by simp [initMS], ?_, ?_⟩
  · intro p hp
    simp only [initMS, List.mem_map] at hp
    obtain ⟨x, _, rfl⟩ := hp
    simp
  · intro p _ i hi
    simp at hi

theorem msLookup_filter {machines : List (String × Nat)} {ms : List (String × List Entry)}
    {sched : List Entry} (hinv : MSInv machines ms sched) {m : String} {cap : Nat}
    (hm : (m, cap) ∈ machines) :
    msLookup ms m = sched.filter (fun e => e.machine = m) := by
  have hmem : m ∈ ms.map Prod.fst := by
    rw [hinv.1]
    exact List.mem_map_of_mem Prod.fst hm
  rw [List.mem_map] at hmem
  obtain ⟨p, hp, hp1⟩ := hmem
  have hsome : (ms.find? (fun p => p.1 = m)).isSome := by
    rw [List.find?_isSome]
    exact ⟨p, hp, by simp [hp1]⟩
  rw [Option.isSome_iff_exists] at hsome
  obtain ⟨p0, hp0⟩ := hsome
  have hp0m : p0.1 = m := by
    have := List.find?_some hp0
    simpa using this
  have hp0mem : p0 ∈ ms := List.mem_of_find?_eq_some hp0
  have : msLookup ms m = p0.2 := by rw [msLookup, hp0]
  rw [this, hinv.2.1 p0 hp0mem, hp0m]

theorem machOk_snoc {cap : Nat} {l : List Entry} {e : Entry} (h : MachOk cap l)
    (hstop : e.stop = e.start + e.duration)
    (hload : loadB l e.start e.duration + e.qubits ≤ cap) :
    MachOk cap (l ++ [e]) := by
  intro i hi
  rw [List.length_append, List.length_singleton] at hi
  rcases Nat.lt_or_ge i l.length with hlt | hge
  · have := h i hlt
    rw [List.get_eq_getElem] at this ⊢
    rw [List.getElem_append_left hlt]
    rwa [List.take_append_of_le_length (le_of_lt hlt)]
  · have hieq : i = l.length := by omega
    subst hieq
    rw [List.get_eq_getElem, List.getElem_append_right (le_refl l.length)]
    simp only [Nat.sub_self, List.getElem_singleton]
    rw [List.take_append_of_le_length (le_refl l.length), List.take_length]
    exact ⟨hstop, hload⟩

theorem msAppend_map_fst (ms : List (String × List Entry)) (m : String) (e : Entry) :
    (msAppend ms m e).map Prod.fst = ms.map Prod.fst := by
  rw [msAppend, List.map_map]
  refine List.map_congr_left ?_
  intro p _
  by_cases hp : p.1 = m
  · simp [hp]
  · simp [hp]

theorem msInv_append {machines : List (String × Nat)} {ms : List (String × List Entry)}
    {sched : List Entry} {m : String} {e : Entry} (hinv : MSInv machines ms sched)
    (hem : e.machine = m) (hstop : e.stop = e.start + e.duration)
    (hfeas : ∀ cap, (m, cap) ∈ machines →
      loadB (sched.filter (fun x => x.machine = m)) e.start e.duration + e.qubits ≤ cap) :
    MSInv machines (msAppend ms m e) (sched ++ [e]) := by
  refine ⟨by rw [msAppend_map_fst]; exact hinv.1, ?_, ?_⟩
  · intro p' hp'
    rw [msAppend, List.mem_map] at hp'
    obtain ⟨p, hp, rfl⟩ := hp'
    by_cases hpm : p.1 = m
    · rw [if_pos hpm]
      simp only
      rw [List.filter_append, hinv.2.1 p hp, hpm]
      congr 1
      rw [List.filter_cons_of_pos (by simp [hem, hpm])]
      rfl
    · rw [if_neg hpm]
      rw [List.filter_append, hinv.2.1 p hp]
      have : List.filter (fun e => e.machine = p.1) [e] = [] := by
        rw [List.filter_cons_of_neg (by simp [hem]; exact fun h => hpm (h ▸ rfl))]
        rfl
      rw [this, List.append_nil]
  · intro p hpmem
    by_cases hpm : p.1 = m
    · have hfil : (sched ++ [e]).filter (fun x => x.machine = p.1)
          = sched.filter (fun x => x.machine = p.1) ++ [e] := by
        rw [List.filter_append]
        congr 1
        rw [List.filter_cons_of_pos (by simp [hem, hpm])]
        rfl
      rw [hfil]
      refine machOk_snoc (hinv.2.2 p hpmem) hstop ?_
      have := hfeas p.2 (by rw [← hpm]; exact hpmem)
      rwa [hpm]
    · have hfil : (sched ++ [e]).filter (fun x => x.machine = p.1)
          = sched.filter (fun x => x.machine = p.1) := by
        rw [List.filter_append]
        have : List.filter (fun x => x.machine = p.1) [e] = [] := by
          rw [List.filter_cons_of_neg (by simp [hem]; exact fun h => hpm (h ▸ rfl))]
          rfl
        rw [this, List.append_nil]
      rw [hfil]
      exact hinv.2.2 p hpmem

/-- The benchmarks FFD job loop keeps every machine feasible. -/
theorem ffdGo_machOk (fuel : Nat) (machines : List (String × Nat))
    (hnd : (machines.map Prod.fst).Nodup) :
    ∀ (l : List (String × Nat)) (ms : List (String × List Entry)) (sched s : List Entry),
      MSInv machines ms sched →
      ffdGo fuel machines l ms sched = some (.ok s) →
      ∀ p ∈ machines, MachOk p.2 (s.filter (fun e => e.machine = p.1)) := by
  intro l
  induction l with
  | nil =>
    intro ms sched s hinv h
    simp only [ffdGo, Option.some_inj, FFDOut.ok.injEq] at h
    exact h ▸ hinv.2.2
  | cons hd tl ih =>
    intro ms sched s hinv h
    match hd with
    | (jid, q) =>
      rw [ffdGo] at h
      by_cases hq : q = 0
      · rw [if_pos hq] at h
        exact ih ms sched s hinv h
      · rw [if_neg hq] at h
        cases hc : chooseMachineB fuel machines ms jid q with
        | none => rw [hc] at h; exact absurd h (by simp)
        | some o =>
          cases o with
          | none => rw [hc] at h; exact absurd h (by simp)
          | some p =>
            match p with
            | (m, e) =>
              rw [hc] at h
              obtain ⟨t, cap, hmcap, hprobe, he⟩ := chooseMachineB_good hc
              have he' : e = ⟨jid, q, m, cap, (t : ℚ), (t : ℚ) + (q : ℚ), (q : ℚ)⟩ := he
              have hlook : msLookup ms m = sched.filter (fun x => x.machine = m) :=
                msLookup_filter hinv hmcap
              have hload : loadB (sched.filter (fun x => x.machine = m)) (t : ℚ) (q : ℚ) + q
                  ≤ cap := by
                rw [← hlook]
                exact probeB_sound fuel 0 hprobe
              have hinv' : MSInv machines (msAppend ms m e) (sched ++ [e]) := by
                refine msInv_append hinv (by rw [he']) (by rw [he']) ?_
                intro cap' hcap'
                have : cap' = cap := nodup_key_eq hnd hcap' hmcap
                subst this
                rw [he']
                exact hload
              exact ih (msAppend ms m e) (sched ++ [e]) s hinv' h

/-- The component FFD job loop keeps every machine feasible. -/
theorem parGo_machOk (fuel : Nat) (machines : List (String × Nat)) (b : ℚ)
    (hnd : (machines.map Prod.fst).Nodup) :
    ∀ (l : List (String × Nat)) (ms : List (String × List Entry)) (sched s : List Entry),
      MSInv machines ms sched →
      parGo fuel machines b l ms sched = some (.ok s) →
      ∀ p ∈ machines, MachOk p.2 (s.filter (fun e => e.machine = p.1)) := by
  intro l
  induction l with
  | nil =>
    intro ms sched s hinv h
    simp only [parGo, Option.some_inj, FFDOut.ok.injEq] at h
    exact h ▸ hinv.2.2
  | cons hd tl ih =>
    intro ms sched s hinv h
    match hd with
    | (jid, q) =>
      rw [parGo] at h
      by_cases hq : q = 0
      · rw [if_pos hq] at h
        exact ih ms sched s hinv h
      · rw [if_neg hq] at h
        cases hc : chooseMachineC fuel machines ms jid q b with
        | none => rw [hc] at h; exact absurd h (by simp)
        | some o =>
          cases o with
          | none => rw [hc] at h; exact absurd h (by simp)
          | some p =>
            match p with
            | (m, e) =>
              rw [hc] at h
              have h' : (if m = "" then some FFDOut.error
                  else parGo fuel machines b tl (msAppend ms m e) (sched ++ [e]))
                  = some (FFDOut.ok s) := h
              by_cases hm : m = ""
              · rw [if_pos hm] at h'; exact absurd h' (by simp)
              · rw [if_neg hm] at h'
                obtain ⟨t, cap, hmcap, hprobe, he⟩ := chooseMachineC_good hc
                have he' : e = ⟨jid, q, m, cap, (t : ℚ), (t : ℚ) + (q : ℚ) * b, (q : ℚ) * b⟩ := he
                have hlook : msLookup ms m = sched.filter (fun x => x.machine = m) :=
                  msLookup_filter hinv hmcap
                have hload : loadB (sched.filter (fun x => x.machine = m)) (t : ℚ)
                    ((q : ℚ) * b) + q ≤ cap := by
                  rw [← hlook]
                  exact probeC_sound fuel 0 hprobe
                have hinv' : MSInv machines (msAppend ms m e) (sched ++ [e]) := by
                  refine msInv_append hinv (by rw [he']) (by rw [he']) ?_
                  intro cap' hcap'
                  have : cap' = cap := nodup_key_eq hnd hcap' hmcap
                  subst this
                  rw [he']
                  exact hload
                exact ih (msAppend ms m e) (sched ++ [e]) s hinv' h'

theorem pointLoadOn_eq_pointLoad (s : List Entry) (name : String) (t : ℚ) :
    pointLoadOn s name t = pointLoad (s.filter (fun e => e.machine = name)) t := by
  unfold pointLoadOn pointLoad
  rw [List.filter_filter]
  congr 2
  apply List.filter_congr
  intro e _
  by_cases h1 : e.machine = name <;> by_cases h2 : e.start ≤ t ∧ t < e.stop <;>
    simp [h1, h2]

/-! ## Capacity invariant for MTMC (C1, MTMC part)

The `time_left` field of a task in `results_success` is aliased in Python
(the same dict is decremented while running) but never read when the schedule
is produced, so the invariant tracks every field except `time_left` through
the projection `rcore`. -/

/-- All fields of an allocated task except the mutable `time_left`. -/
def rcore (r : RTask) : String × Nat × String × Nat × Nat × Nat :=
  (r.name, r.qubits, r.assigned_chip, r.capacity, r.start_time, r.end_time)

/-- The recorded tasks that are on chip `name` and still running at the start
of the pass whose loop-top time is `h`. -/
def runningFilter (done : List RTask) (name : String) (h : Nat) : List RTask :=
  done.filter (fun r => r.assigned_chip = name ∧ r.start_time < h ∧ h ≤ r.end_time)

/-- The demand running on chip `name` at integer instant `n` in the recorded
schedule. -/
def rLoadOn (done : List RTask) (name : String) (n : Nat) : Nat :=
  ((done.filter (fun r => r.assigned_chip = name ∧ r.start_time ≤ n ∧ n < r.end_time)).map
    (fun r => r.qubits)).sum

/-- Per-chip state invariant at loop-top time `h`, against the chip's initial
capacity `p.2`: remaining capacity plus running demand equals the initial
capacity, the running list is exactly the still-active recorded tasks (up to
`time_left`), and every running task's `time_left` counts down to its end. -/
def ChipInvOne (done : List RTask) (h : Nat) (c : Chip) (p : String × Nat) : Prop :=
  c.name = p.1
  ∧ c.capacity + ((c.running_tasks.map (fun r => r.qubits)).sum) = p.2
  ∧ c.running_tasks.map rcore = (runningFilter done p.1 h).map rcore
  ∧ ∀ r ∈ c.running_tasks,
      r.time_left = (r.end_time : Int) + 1 - (h : Int) ∧ 1 ≤ r.time_left

def ChipsInv (chiplist : List (String × Nat)) (chips : List Chip) (done : List RTask)
    (h : Nat) : Prop :=
  List.Forall₂ (ChipInvOne done h) chips chiplist

/-- Every recorded task started before `h`, runs for exactly its demand, and
has positive demand. -/
def DoneInv (done : List RTask) (h : Nat) : Prop :=
  ∀ r ∈ done, r.start_time < h ∧ r.end_time = r.start_time + r.qubits ∧ 1 ≤ r.qubits

/-- The capacity bound already holds for every instant strictly before the
previous tick. -/
def BoundInv (chiplist : List (String × Nat)) (done : List RTask) (h : Nat) : Prop :=
  ∀ p ∈ chiplist, ∀ n : Nat, n + 1 < h → rLoadOn done p.1 n ≤ p.2

def StInv (chiplist : List (String × Nat)) (st : MState) : Prop :=
  ChipsInv chiplist st.chips st.done st.time
  ∧ DoneInv st.done st.time
  ∧ BoundInv chiplist st.done st.time
  ∧ ∀ task ∈ st.pending, 1 ≤ task.qubits

theorem forall2_right_mem {α β : Type} {R : α → β → Prop} :
    ∀ {l : List α} {l' : List β}, List.Forall₂ R l l' → ∀ b ∈ l', ∃ a ∈ l, R a b := by
  intro l l' h
  induction h with
  | nil => intro b hb; cases hb
  | cons hR _ ih =>
    intro b hb
    rcases List.mem_cons.mp hb with rfl | hb'
    · exact ⟨_, List.mem_cons_self _ _, hR⟩
    · obtain ⟨a, ha, hr⟩ := ih b hb'
      exact ⟨a, List.mem_cons_of_mem _ ha, hr⟩

theorem map_rcore_filter (p : RTask → Bool) (hp : ∀ r1 r2, rcore r1 = rcore r2 → p r1 = p r2) :
    ∀ {l1 l2 : List RTask}, l1.map rcore = l2.map rcore →
      (l1.filter p).map rcore = (l2.filter p).map rcore := by
  intro l1
  induction l1 with
  | nil =>
    intro l2 h
    cases l2 with
    | nil => rfl
    | cons b l2' => exact absurd h (by simp)
  | cons a l1' ih =>
    intro l2 h
    cases l2 with
    | nil => exact absurd h (by simp)
    | cons b l2' =>
      simp only [List.map_cons, List.cons.injEq] at h
      have hpab : p a = p b := hp a b h.1
      by_cases hpa : p a = true
      · rw [List.filter_cons_of_pos hpa, List.filter_cons_of_pos (hpab ▸ hpa)]
        simp only [List.map_cons, List.cons.injEq]
        exact ⟨h.1, ih h.2⟩
      · rw [List.filter_cons_of_neg (by simpa using hpa),
          List.filter_cons_of_neg (by simp [← hpab]; simpa using hpa)]
        exact ih h.2

theorem sum_qubits_of_rcore_eq {l1 l2 : List RTask} (h : l1.map rcore = l2.map rcore) :
    (l1.map (fun r => r.qubits)).sum = (l2.map (fun r => r.qubits)).sum := by
  have h1 : l1.map (fun r => r.qubits) = (l1.map rcore).map (fun x => x.2.1) := by
    rw [List.map_map]; rfl
  have h2 : l2.map (fun r => r.qubits) = (l2.map rcore).map (fun x => x.2.1) := by
    rw [List.map_map]; rfl
  rw [h1, h2, h]

theorem sum_qubits_partition (l : List RTask) :
    ((l.filter (fun t => t.time_left = 0)).map (fun r => r.qubits)).sum
      + ((l.filter (fun t => ¬t.time_left = 0)).map (fun r => r.qubits)).sum
      = (l.map (fun r => r.qubits)).sum := by
  induction l with
  | nil => rfl
  | cons a l' ih =>
    by_cases ha : a.time_left = 0
    · rw [List.filter_cons_of_pos (by simpa using ha),
        List.filter_cons_of_neg (by simpa using ha)]
      simp only [List.map_cons, List.sum_cons]
      omega
    · rw [List.filter_cons_of_neg (by simpa using ha),
        List.filter_cons_of_pos (by simpa using ha)]
      simp only [List.map_cons, List.sum_cons]
      omega

theorem dec_filter_rcore (g : Nat) :
    ∀ run : List RTask,
      (∀ r ∈ run, r.time_left = (r.end_time : Int) + 1 - (g : Int) ∧ 1 ≤ r.time_left) →
      ((run.map (fun t => { t with time_left := t.time_left - 1 })).filter
          (fun t => ¬t.time_left = 0)).map rcore
        = (run.filter (fun r => g + 1 ≤ r.end_time)).map rcore := by
  intro run
  induction run with
  | nil => intro _; rfl
  | cons a run' ih =>
    intro h
    have ha := h a (List.mem_cons_self _ _)
    have hrest := fun r hr => h r (List.mem_cons_of_mem _ hr)
    have hge : (g : Int) ≤ (a.end_time : Int) := by omega
    rw [List.map_cons]
    by_cases hend : g + 1 ≤ a.end_time
    · have hkeep : ¬({ a with time_left := a.time_left - 1 } : RTask).time_left = 0 := by
        simp only
        have : ((g : Nat) + 1 : Int) ≤ (a.end_time : Int) := by exact_mod_cast hend
        omega
      rw [List.filter_cons_of_pos (by simpa using hkeep),
        List.filter_cons_of_pos (by simpa using hend)]
      simp only [List.map_cons]
      rw [ih hrest]
      rfl
    · have hdrop : ({ a with time_left := a.time_left - 1 } : RTask).time_left = 0 := by
        simp only
        have : ¬((g : Nat) + 1 : Int) ≤ (a.end_time : Int) := by exact_mod_cast hend
        omega
      rw [List.filter_cons_of_neg (by simpa using hdrop),
        List.filter_cons_of_neg (by simpa using hend)]
      exact ih hrest

theorem decrementChip_inv {done : List RTask} {g : Nat} {c : Chip} {p : String × Nat}
    (hdone : DoneInv done g) (h : ChipInvOne done g c p) :
    ChipInvOne done (g + 1) (decrementChip c) p := by
  obtain ⟨hname, hcap, hcore, htl⟩ := h
  have hdecmap : (c.running_tasks.map (fun t =>
      ({ t with time_left := t.time_left - 1 } : RTask))).map rcore
      = c.running_tasks.map rcore := by
    rw [List.map_map]; rfl
  refine ⟨hname, ?_, ?_, ?_⟩
  · -- capacity accounting: the finished demand moves back into `capacity`
    simp only [decrementChip]
    have hpart := sum_qubits_partition
      (c.running_tasks.map (fun t => { t with time_left := t.time_left - 1 }))
    have hsum : ((c.running_tasks.map (fun t =>
        ({ t with time_left := t.time_left - 1 } : RTask))).map (fun r => r.qubits)).sum
        = ((c.running_tasks.map (fun r => r.qubits)).sum) :=
      sum_qubits_of_rcore_eq hdecmap
    omega
  · -- the surviving tasks are exactly those still active at time g+1
    simp only [decrementChip]
    rw [dec_filter_rcore g c.running_tasks htl]
    rw [map_rcore_filter (fun r => decide (g + 1 ≤ r.end_time))
      (fun r1 r2 hc => by
        have he : r1.end_time = r2.end_time := by
          have := congrArg (fun x => x.2.2.2.2.2) hc
          simpa [rcore] using this
        show decide (g + 1 ≤ r1.end_time) = decide (g + 1 ≤ r2.end_time)
        rw [he]) hcore]
    congr 1
    show (runningFilter done p.1 g).filter (fun r => decide (g + 1 ≤ r.end_time))
        = runningFilter done p.1 (g + 1)
    rw [runningFilter, runningFilter, List.filter_filter]
    refine List.filter_congr ?_
    intro r hr
    have hs := (hdone r hr).1
    rw [Bool.eq_iff_iff]
    simp only [Bool.and_eq_true, decide_eq_true_eq]
    constructor
    · rintro ⟨h2, h1, h3, h4⟩
      exact ⟨h1, by omega, h2⟩
    · rintro ⟨h1, h3, h4⟩
      exact ⟨h4, h1, by omega, by omega⟩
  · -- time_left bookkeeping for the survivors
    simp only [decrementChip]
    intro r' hr'
    rw [List.mem_filter] at hr'
    obtain ⟨hmem, hne⟩ := hr'
    rw [List.mem_map] at hmem
    obtain ⟨r, hr, rfl⟩ := hmem
    have := htl r hr
    simp only [decide_eq_true_eq] at hne
    constructor
    · simp only
      push_cast
      omega
    · simp only at hne ⊢
      omega

theorem chipsInv_names {chiplist : List (String × Nat)} {chips : List Chip}
    {done : List RTask} {h : Nat} (hc : ChipsInv chiplist chips done h) :
    chips.map (fun c => c.name) = chiplist.map Prod.fst := by
  induction hc with
  | nil => rfl
  | cons hR _ ih => simp only [List.map_cons, ih, hR.1]

theorem chip_name_inj :
    ∀ {chips : List Chip}, (chips.map (fun c => c.name)).Nodup →
      ∀ {c1 c2 : Chip}, c1 ∈ chips → c2 ∈ chips → c1.name = c2.name → c1 = c2 := by
  intro chips
  induction chips with
  | nil => intro _ c1 c2 h1; cases h1
  | cons hd tl ih =>
    intro hnd c1 c2 h1 h2 hname
    rw [List.map_cons, List.nodup_cons] at hnd
    rcases List.mem_cons.mp h1 with rfl | h1'
    · rcases List.mem_cons.mp h2 with rfl | h2'
      · rfl
      · exact absurd (hname ▸ List.mem_map_of_mem (fun c => c.name) h2') hnd.1
    · rcases List.mem_cons.mp h2 with rfl | h2'
      · exact absurd (hname ▸ List.mem_map_of_mem (fun c => c.name) h1') hnd.1
      · exact ih hnd.2 h1' h2' hname

theorem allocate_task_none {task : Task} {chips : List Chip} {g : Nat} {chips' : List Chip}
    (hal : allocate_task task chips g = (none, chips')) : chips' = chips := by
  rw [allocate_task] at hal
  cases hfil : chips.filter (fun c => task.qubits ≤ c.capacity) with
  | nil => rw [hfil] at hal; simpa using hal.symm
  | cons c0 rest => rw [hfil] at hal; exact absurd hal (by simp)

/-- Allocating one task preserves the per-chip invariant, the new task being
recorded as running on the selected chip. -/
theorem chipsInv_alloc {chiplist : List (String × Nat)} {done : List RTask} {g : Nat}
    {sel : Chip} {r0 : RTask} {q : Nat}
    (hq : 1 ≤ q) (hfit : q ≤ sel.capacity)
    (hr0a : r0.assigned_chip = sel.name) (hr0q : r0.qubits = q)
    (hr0s : r0.start_time = g) (hr0e : r0.end_time = g + q)
    (hr0t : r0.time_left = (q : Int)) :
    ∀ {chips : List Chip}, ChipsInv chiplist chips done (g + 1) →
      (∀ c ∈ chips, c.name = sel.name → c = sel) →
      ChipsInv chiplist
        (chips.map (fun c =>
          if c.name = sel.name then
            { c with capacity := c.capacity - q, running_tasks := c.running_tasks ++ [r0] }
          else c))
        (done ++ [r0]) (g + 1) := by
  intro chips hinv
  induction hinv with
  | nil => intro _; exact List.Forall₂.nil
  | @cons c p tl tl' hR hRs ih =>
    intro hni
    rw [List.map_cons]
    refine List.Forall₂.cons ?_ (ih (fun x hx => hni x (List.mem_cons_of_mem _ hx)))
    obtain ⟨hname, hcap, hcore, htl⟩ := hR
    by_cases hcn : c.name = sel.name
    · -- the selected chip: demand deducted, task appended
      have hceq : c = sel := hni c (List.mem_cons_self _ _) hcn
      rw [if_pos hcn]
      refine ⟨hname, ?_, ?_, ?_⟩
      · simp only [List.map_append, List.sum_append, List.map_cons, List.sum_cons,
          List.map_nil, List.sum_nil, hr0q]
        have : q ≤ c.capacity := hceq ▸ hfit
        omega
      · simp only [List.map_append]
        rw [hcore]
        have hfil : runningFilter (done ++ [r0]) p.1 (g + 1)
            = runningFilter done p.1 (g + 1) ++ [r0] := by
          rw [runningFilter, runningFilter, List.filter_append]
          congr 1
          rw [List.filter_cons_of_pos]
          · rfl
          · simp only [decide_eq_true_eq]
            refine ⟨by rw [hr0a, ← hcn, hname], by omega, by omega⟩
        rw [hfil, List.map_append]
      · intro r hr
        rcases List.mem_append.mp hr with hr' | hr'
        · exact htl r hr'
        · rw [List.mem_singleton] at hr'
          subst hr'
          constructor
          · rw [hr0t, hr0e]; push_cast; omega
          · rw [hr0t]; exact_mod_cast hq
    · -- an untouched chip: the new task is not assigned to it
      rw [if_neg hcn]
      refine ⟨hname, hcap, ?_, htl⟩
      rw [hcore]
      congr 1
      rw [runningFilter, runningFilter, List.filter_append]
      have : List.filter (fun r => decide (r.assigned_chip = p.1 ∧ r.start_time < g + 1
          ∧ g + 1 ≤ r.end_time)) [r0] = [] := by
        rw [List.filter_cons_of_neg]
        · rfl
        · simp only [decide_eq_true_eq]
          rintro ⟨ha, _, _⟩
          exact hcn (hname ▸ (hr0a ▸ ha).symm ▸ rfl)
      rw [this, List.append_nil]

theorem alloc_map_names (chips : List Chip) (sel : Chip) (q : Nat) (r0 : RTask) :
    (chips.map (fun c =>
      if c.name = sel.name then
        { c with capacity := c.capacity - q, running_tasks := c.running_tasks ++ [r0] }
      else c)).map (fun c => c.name) = chips.map (fun c => c.name) := by
  rw [List.map_map]
  refine List.map_congr_left ?_
  intro c _
  by_cases hc : c.name = sel.name
  · simp [hc]
  · simp [hc]

/-- The allocation phase preserves the chip invariant; every allocated task is
recorded with `start = g`, `end = start + demand`, positive demand; tasks left
pending keep positive demand. -/
theorem preAlloc_inv (chiplist : List (String × Nat)) :
    ∀ (tasklist : List Task) (chips : List Chip) (g : Nat) (done : List RTask),
      (∀ t ∈ tasklist, 1 ≤ t.qubits) →
      (chips.map (fun c => c.name)).Nodup →
      ChipsInv chiplist chips done (g + 1) →
      ChipsInv chiplist (MultiTaskMultiChipsPreAlloc tasklist chips g).2.2
        (done ++ (MultiTaskMultiChipsPreAlloc tasklist chips g).1) (g + 1)
      ∧ (∀ r ∈ (MultiTaskMultiChipsPreAlloc tasklist chips g).1,
          r.start_time = g ∧ r.end_time = r.start_time + r.qubits ∧ 1 ≤ r.qubits)
      ∧ (∀ t ∈ (MultiTaskMultiChipsPreAlloc tasklist chips g).2.1, 1 ≤ t.qubits) := by
  intro tasklist
  induction tasklist with
  | nil =>
    intro chips g done _ _ hinv
    refine ⟨?_, ?_, ?_⟩
    · simpa [MultiTaskMultiChipsPreAlloc] using hinv
    · intro r hr; simp [MultiTaskMultiChipsPreAlloc] at hr
    · intro t ht; simp [MultiTaskMultiChipsPreAlloc] at ht
  | cons task rest ih =>
    intro chips g done hq hnd hinv
    have hqt : 1 ≤ task.qubits := hq task (List.mem_cons_self _ _)
    have hqrest : ∀ t ∈ rest, 1 ≤ t.qubits := fun t ht => hq t (List.mem_cons_of_mem _ ht)
    cases hal : allocate_task task chips g with
    | mk o chips' =>
      cases o with
      | some r0 =>
        obtain ⟨sel, hselmem, hfit, _, hr0, hchips'⟩ := allocate_task_some hal
        have hr0' : r0 = ⟨task.name, task.qubits, sel.name, sel.capacity,
            (task.qubits : Int), g, g + task.qubits⟩ := hr0
        have hinv' : ChipsInv chiplist chips' (done ++ [r0]) (g + 1) := by
          rw [hchips']
          exact chipsInv_alloc hqt hfit (by rw [hr0']) (by rw [hr0']) (by rw [hr0'])
            (by rw [hr0']) (by rw [hr0']) hinv
            (fun c hc hname => chip_name_inj hnd hc hselmem hname)
        have hnd' : (chips'.map (fun c => c.name)).Nodup := by
          rw [hchips', alloc_map_names]
          exact hnd
        obtain ⟨ha, hb, hc2⟩ := ih chips' g (done ++ [r0]) hqrest hnd' hinv'
        rw [preAlloc_cons_some hal]
        refine ⟨?_, ?_, hc2⟩
        · show ChipsInv chiplist (MultiTaskMultiChipsPreAlloc rest chips' g).2.2
            (done ++ ([r0] ++ (MultiTaskMultiChipsPreAlloc rest chips' g).1)) (g + 1)
          rw [← List.append_assoc]
          exact ha
        · intro r hr
          rcases List.mem_cons.mp hr with rfl | hr'
          · refine ⟨by rw [hr0'], by rw [hr0'], by rw [hr0']; exact hqt⟩
          · exact hb r hr'
      | none =>
        have hceq : chips' = chips := allocate_task_none hal
        subst hceq
        obtain ⟨ha, hb, hc2⟩ := ih chips' g done hqrest hnd hinv
        rw [preAlloc_cons_none hal]
        refine ⟨ha, hb, ?_⟩
        intro t ht
        rcases List.mem_cons.mp ht with rfl | ht'
        · exact hqt
        · exact hc2 t ht'

theorem mtmcStep_eq (st : MState) :
    mtmcStep st =
      { pending := (MultiTaskMultiChipsPreAlloc
            (insSortBy (fun a b => a.name < b.name) st.pending)
            (st.chips.map decrementChip) st.time).2.1,
        chips := (MultiTaskMultiChipsPreAlloc
            (insSortBy (fun a b => a.name < b.name) st.pending)
            (st.chips.map decrementChip) st.time).2.2,
        time := st.time + 1,
        done := st.done ++ (MultiTaskMultiChipsPreAlloc
            (insSortBy (fun a b => a.name < b.name) st.pending)
            (st.chips.map decrementChip) st.time).1 } := by
  rw [mtmcStep]

theorem rLoadOn_append (l1 l2 : List RTask) (name : String) (n : Nat) :
    rLoadOn (l1 ++ l2) name n = rLoadOn l1 name n + rLoadOn l2 name n := by
  rw [rLoadOn, rLoadOn, rLoadOn, List.filter_append, List.map_append, List.sum_append]

theorem rLoadOn_eq_sum_running (done : List RTask) (name : String) (n : Nat) :
    rLoadOn done name n = ((runningFilter done name (n + 1)).map (fun r => r.qubits)).sum := by
  rw [rLoadOn, runningFilter]
  congr 2
  refine List.filter_congr ?_
  intro r _
  rw [Bool.eq_iff_iff]
  simp only [decide_eq_true_eq]
  constructor
  · rintro ⟨h1, h2, h3⟩
    exact ⟨h1, by omega, by omega⟩
  · rintro ⟨h1, h2, h3⟩
    exact ⟨h1, by omega, by omega⟩

theorem mtmcStep_inv {chiplist : List (String × Nat)} (hnd : (chiplist.map Prod.fst).Nodup)
    {st : MState} (h : StInv chiplist st) : StInv chiplist (mtmcStep st) := by
  obtain ⟨hchips, hdone, hbound, hpend⟩ := h
  have htlq : ∀ t ∈ insSortBy (fun a b => a.name < b.name) st.pending, 1 ≤ t.qubits :=
    fun t ht => hpend t ((insSortBy_perm _ st.pending).mem_iff.mp ht)
  have hchips1 : ChipsInv chiplist (st.chips.map decrementChip) st.done (st.time + 1) := by
    rw [ChipsInv, List.forall₂_map_left_iff]
    exact hchips.imp (fun a b hab => decrementChip_inv hdone hab)
  have hnames1 : ((st.chips.map decrementChip).map (fun c => c.name)).Nodup := by
    have h1 : (st.chips.map decrementChip).map (fun c => c.name)
        = st.chips.map (fun c => c.name) := by
      rw [List.map_map]
      refine List.map_congr_left ?_
      intro c _
      rfl
    rw [h1, chipsInv_names hchips]
    exact hnd
  obtain ⟨ha, hb, hc⟩ := preAlloc_inv chiplist
    (insSortBy (fun a b => a.name < b.name) st.pending)
    (st.chips.map decrementChip) st.time st.done htlq hnames1 hchips1
  rw [mtmcStep_eq]
  refine ⟨ha, ?_, ?_, hc⟩
  · -- DoneInv at time + 1
    show DoneInv (st.done ++ (MultiTaskMultiChipsPreAlloc
        (insSortBy (fun a b => a.name < b.name) st.pending)
        (st.chips.map decrementChip) st.time).1) (st.time + 1)
    intro r hr
    rcases List.mem_append.mp hr with hr' | hr'
    · have := hdone r hr'
      exact ⟨by omega, this.2.1, this.2.2⟩
    · have := hb r hr'
      exact ⟨by omega, this.2.1, this.2.2⟩
  · -- BoundInv at time + 1
    show BoundInv chiplist (st.done ++ (MultiTaskMultiChipsPreAlloc
        (insSortBy (fun a b => a.name < b.name) st.pending)
        (st.chips.map decrementChip) st.time).1) (st.time + 1)
    intro p hp n hn
    rw [rLoadOn_append]
    have hA0 : rLoadOn (MultiTaskMultiChipsPreAlloc
        (insSortBy (fun a b => a.name < b.name) st.pending)
        (st.chips.map decrementChip) st.time).1 p.1 n = 0 := by
      rw [rLoadOn]
      have : List.filter (fun r => decide (r.assigned_chip = p.1 ∧ r.start_time ≤ n
          ∧ n < r.end_time)) (MultiTaskMultiChipsPreAlloc
            (insSortBy (fun a b => a.name < b.name) st.pending)
            (st.chips.map decrementChip) st.time).1 = [] := by
        rw [List.filter_eq_nil_iff]
        intro r hr
        have := hb r hr
        simp only [decide_eq_true_eq]
        rintro ⟨_, h2, _⟩
        omega
      rw [this]
      rfl
    rw [hA0, Nat.add_zero]
    rcases Nat.lt_or_ge (n + 1) st.time with hlt | hge
    · exact hbound p hp n hlt
    · have hgeq : n + 1 = st.time := by omega
      rw [rLoadOn_eq_sum_running st.done p.1 n, hgeq]
      obtain ⟨c, _, hR⟩ := forall2_right_mem hchips p hp
      have hcap := hR.2.1
      have hsum := sum_qubits_of_rcore_eq hR.2.2.1
      omega

theorem mtmc_final {chiplist : List (String × Nat)} {st : MState}
    (hinv : StInv chiplist st) (hcond : ¬mtmcCond st = true) :
    ∀ p ∈ chiplist, ∀ n : Nat, rLoadOn st.done p.1 n ≤ p.2 := by
  obtain ⟨hchips, hdone, hbound, _⟩ := hinv
  have hrun_empty : ∀ c ∈ st.chips, c.running_tasks = [] := by
    intro c hc
    rw [mtmcCond] at hcond
    simp only [Bool.or_eq_true, Bool.not_eq_true', List.any_eq_true, not_or, not_exists] at hcond
    have := hcond.2
    simp only [not_exists, not_and, Bool.not_eq_true] at this
    have h2 := this c hc
    rw [Bool.not_eq_false] at h2
    exact List.isEmpty_iff.mp h2
  intro p hp n
  rcases Nat.lt_or_ge (n + 1) st.time with hlt | hge
  · exact hbound p hp n hlt
  · have hzero : rLoadOn st.done p.1 n = 0 := by
      rw [rLoadOn]
      have hfil : List.filter (fun r => decide (r.assigned_chip = p.1 ∧ r.start_time ≤ n
          ∧ n < r.end_time)) st.done = [] := by
        rw [List.filter_eq_nil_iff]
        intro r hr
        simp only [decide_eq_true_eq]
        rintro ⟨h1, h2, h3⟩
        obtain ⟨c, hcmem, hR⟩ := forall2_right_mem hchips p hp
        have hrempty := hrun_empty c hcmem
        have hcore := hR.2.2.1
        rw [hrempty, List.map_nil] at hcore
        have hnil : runningFilter st.done p.1 st.time = [] :=
          List.map_eq_nil_iff.mp hcore.symm
        have hmem : r ∈ runningFilter st.done p.1 st.time := by
          rw [runningFilter, List.mem_filter]
          refine ⟨hr, ?_⟩
          simp only [decide_eq_true_eq]
          have hds := (hdone r hr).1
          exact ⟨h1, hds, by omega⟩
        rw [hnil] at hmem
        cases hmem
      rw [hfil]
      rfl
    rw [hzero]
    exact Nat.zero_le _

theorem mtmcRun_bound {chiplist : List (String × Nat)} (hnd : (chiplist.map Prod.fst).Nodup) :
    ∀ (fuel : Nat) (st : MState) (done : List RTask), StInv chiplist st →
      mtmcRun fuel st = some done →
      ∀ p ∈ chiplist, ∀ n : Nat, rLoadOn done p.1 n ≤ p.2 := by
  intro fuel
  induction fuel with
  | zero =>
    intro st done hinv hrun
    rw [mtmcRun] at hrun
    by_cases hcond : mtmcCond st = true
    · rw [if_pos hcond] at hrun; exact absurd hrun (by simp)
    · rw [if_neg hcond] at hrun
      have hd : st.done = done := by simpa using hrun
      exact hd ▸ mtmc_final hinv hcond
  | succ m ih =>
    intro st done hinv hrun
    rw [mtmcRun] at hrun
    by_cases hcond : mtmcCond st = true
    · rw [if_pos hcond] at hrun
      exact ih (mtmcStep st) done (mtmcStep_inv hnd hinv) hrun
    · rw [if_neg hcond] at hrun
      have hd : st.done = done := by simpa using hrun
      exact hd ▸ mtmc_final hinv hcond

theorem format_pointLoad_neg (done : List RTask) (chiplist : List (String × Nat))
    (name : String) {t : ℚ} (ht : t < 0) :
    pointLoadOn (format_result_json done chiplist) name t = 0 := by
  rw [pointLoadOn]
  have hfil : (format_result_json done chiplist).filter
      (fun e => decide (e.machine = name ∧ e.start ≤ t ∧ t < e.stop)) = [] := by
    rw [List.filter_eq_nil_iff]
    intro e he
    rw [format_result_json, List.mem_map] at he
    obtain ⟨r, _, rfl⟩ := he
    simp only [decide_eq_true_eq]
    rintro ⟨_, h2, _⟩
    exact absurd (lt_of_le_of_lt h2 ht) (not_lt.mpr (Nat.cast_nonneg _))
  rw [hfil]
  rfl

theorem format_pointLoad_nonneg (done : List RTask) (chiplist : List (String × Nat))
    (name : String) {t : ℚ} (ht : 0 ≤ t) :
    pointLoadOn (format_result_json done chiplist) name t = rLoadOn done name ⌊t⌋₊ := by
  rw [pointLoadOn, format_result_json, List.filter_map, List.map_map]
  have hstep : ∀ l : List RTask,
      ((l.filter (fun r => decide (r.assigned_chip = name
          ∧ (r.start_time : ℚ) ≤ t ∧ t < (r.end_time : ℚ)))).map (fun r => r.qubits)).sum
        = rLoadOn l name ⌊t⌋₊ := by
    intro l
    rw [rLoadOn]
    congr 2
    refine List.filter_congr ?_
    intro r _
    rw [Bool.eq_iff_iff]
    simp only [decide_eq_true_eq]
    constructor
    · rintro ⟨h1, h2, h3⟩
      exact ⟨h1, (Nat.le_floor_iff ht).mpr h2, (Nat.floor_lt ht).mpr h3⟩
    · rintro ⟨h1, h2, h3⟩
      exact ⟨h1, (Nat.le_floor_iff ht).mp h2, (Nat.floor_lt ht).mp h3⟩
  have hperm := (insSortBy_perm (fun a b : RTask => a.start_time < b.start_time) done).filter
    (fun r => decide (r.assigned_chip = name
      ∧ (r.start_time : ℚ) ≤ t ∧ t < (r.end_time : ℚ)))
  have hsum := (hperm.map (fun r => r.qubits)).sum_eq
  rw [← hstep done, ← hsum]
  rfl

/-- C1.  Capacity invariant: for every valid input (positive integer demands
and capacities, distinct machine names), for every machine `M` and every
rational instant `t`, the sum of the demands of the schedule entries on `M`
whose half-open interval `[start, end)` contains `t` is at most `M`'s
capacity — for every schedule returned by the benchmarks FFD
(`schedule_jobs_ffd`), the component FFD (`schedule_jobs_parallel`, any base
time per qubit), and MTMC (`multi_task_multi_chip_scheduling`). -/
theorem capacity_invariant_all :
    (∀ (fuel : Nat) (jobs machines : List (String × Nat)) (s : List Entry),
        (∀ p ∈ jobs, 0 < p.2) → (∀ p ∈ machines, 0 < p.2) →
        (machines.map Prod.fst).Nodup →
        schedule_jobs_ffd fuel jobs machines = some (.ok s) →
        ∀ mc ∈ machines, ∀ t : ℚ, pointLoadOn s mc.1 t ≤ mc.2)
    ∧ (∀ (fuel : Nat) (jobs machines : List (String × Nat)) (b : ℚ) (s : List Entry),
        (∀ p ∈ jobs, 0 < p.2) → (∀ p ∈ machines, 0 < p.2) →
        (machines.map Prod.fst).Nodup →
        schedule_jobs_parallel fuel jobs machines b = some (.ok s) →
        ∀ mc ∈ machines, ∀ t : ℚ, pointLoadOn s mc.1 t ≤ mc.2)
    ∧ (∀ (fuel : Nat) (chiplist : List (String × Nat)) (tasks : List Task) (s : List Entry),
        (∀ task ∈ tasks, 0 < task.qubits) → (∀ p ∈ chiplist, 0 < p.2) →
        (chiplist.map Prod.fst).Nodup →
        multi_task_multi_chip_scheduling fuel chiplist tasks = some s →
        ∀ mc ∈ chiplist, ∀ t : ℚ, pointLoadOn s mc.1 t ≤ mc.2) := by
  refine ⟨?_, ?_, ?_⟩
  · intro fuel jobs machines s _ _ hnd hrun mc hmc t
    rw [schedule_jobs_ffd] at hrun
    have hOk := ffdGo_machOk fuel machines hnd _ (initMS machines) [] s
      (msInv_init machines) hrun mc hmc
    rw [pointLoadOn_eq_pointLoad]
    exact machOk_pointLoad mc.2 _ hOk t
  · intro fuel jobs machines b s _ _ hnd hrun mc hmc t
    rw [schedule_jobs_parallel] at hrun
    have hOk := parGo_machOk fuel machines b hnd _ (initMS machines) [] s
      (msInv_init machines) hrun mc hmc
    rw [pointLoadOn_eq_pointLoad]
    exact machOk_pointLoad mc.2 _ hOk t
  · intro fuel chiplist tasks s hq _ hnd hrun mc hmc t
    rw [multi_task_multi_chip_scheduling] at hrun
    rw [Option.map_eq_some'] at hrun
    obtain ⟨done, hdrun, rfl⟩ := hrun
    have hinit : StInv chiplist
        { pending := tasks,
          chips := chiplist.map (fun c => { name := c.1, capacity := c.2, running_tasks := [] }),
          time := 0, done := [] } := by
      refine ⟨?_, ?_, ?_, ?_⟩
      · rw [ChipsInv, List.forall₂_map_left_iff]
        rw [List.forall₂_same]
        intro p _
        refine ⟨rfl, by simp, rfl, ?_⟩
        intro r hr
        cases hr
      · intro r hr; cases hr
      · intro p _ n hn; exact absurd hn (Nat.not_lt_zero _)
      · intro task ht; exact hq task ht
    have hbound := mtmcRun_bound hnd fuel _ done hinit hdrun
    rcases lt_or_le t 0 with hneg | hpos
    · rw [format_pointLoad_neg done chiplist mc.1 hneg]
      exact Nat.zero_le _
    · rw [format_pointLoad_nonneg done chiplist mc.1 hpos]
      exact hbound mc hmc ⌊t⌋₊

/-- Witness for C1 at concrete inputs: one job of demand 2 on one machine of
capacity 3, scheduled by each of the three algorithms (base time per qubit 2
for the component FFD), sampled at the instants 1, 3 and 1/2. -/
theorem capacity_invariant_all_witness :
    pointLoadOn [⟨"1", 2, "A", 3, 0, 2, 2⟩] "A" 1 ≤ 3
    ∧ pointLoadOn [⟨"1", 2, "A", 3, 0, 4, 4⟩] "A" 3 ≤ 3
    ∧ pointLoadOn [⟨"1", 2, "A", 3, 0, 2, 2⟩] "A" (1/2) ≤ 3 := by
  have h1 : schedule_jobs_ffd 10 [("1", 2)] [("A", 3)]
      = some (.ok [⟨"1", 2, "A", 3, 0, 2, 2⟩]) := by
    norm_num [schedule_jobs_ffd, ffdGo, chooseMachineB, chooseMachineB.go, findEarliestStartB,
      can_run_at_time, loadB, insSortBy, insertBy, initMS, msLookup, msAppend]
  have h2 : schedule_jobs_parallel 10 [("1", 2)] [("A", 3)] 2
      = some (.ok [⟨"1", 2, "A", 3, 0, 4, 4⟩]) := by
    have hA : ¬ ("A" : String) = "" := by decide
    norm_num [schedule_jobs_parallel, parGo, chooseMachineC, chooseMachineC.go,
      findEarliestStartC, loadC, insSortBy, insertBy, initMS, msLookup, msAppend, hA]
  have h3 : multi_task_multi_chip_scheduling 20 [("A", 3)] [⟨"1", 2⟩]
      = some [⟨"1", 2, "A", 3, 0, 2, 2⟩] := by
    norm_num [multi_task_multi_chip_scheduling, mtmcRun, mtmcStep, mtmcCond, insSortBy,
      insertBy, decrementChip, MultiTaskMultiChipsPreAlloc, allocate_task, format_result_json]
  exact ⟨capacity_invariant_all.1 10 _ _ _ (by decide) (by decide) (by decide) h1
      ("A", 3) (by decide) 1,
    capacity_invariant_all.2.1 10 _ _ 2 _ (by decide) (by decide) (by decide) h2
      ("A", 3) (by decide) 3,
    capacity_invariant_all.2.2 20 _ _ _ (by decide) (by decide) (by decide) h3
      ("A", 3) (by decide) (1/2)⟩

end Sched
